import Mathlib

/-!
Shallow embedding of the one-line-diagram engine of
src/src/OneLineEditor.tsx (first prototype iteration, the one the spec
describes): the data model (Node, Edge, Diagram), the pin-graph builder,
the multi-label BFS propagator `sim`, the derived state (nodeHot,
edgeHot, edgeSig), and the UI-level operations `toggleBreaker` and the
JSON load action.

Modelling conventions:
- A pin is the pair (node id, port index).  The source encodes pins as
  strings id ++ "#" ++ port and parses them back by splitting at the
  last "#"; since a port's decimal representation never contains "#",
  that encoding is a bijection onto pairs, so we use pairs directly.
- The JS Map nodesById is built by inserting every node under its id,
  so for a duplicated id the LAST occurrence wins; `lookupNode`
  searches the reversed list to reproduce that.
- The propagation loop reads nbNode.id on the result of a Map lookup
  guarded only by a type-level `!` assertion; when the looked-up node
  does not exist this is a runtime TypeError.  We model that crash as
  the `none` outcome of `Option`: every function on the propagation
  path returns `Option _`, and `none` means the JS would have thrown.
- Fuel-indexed recursion replaces the JS while loop; `fuelBound` fuel
  provably suffices (`run_fuelBound_stable` below), so `sim` computes
  the loop's real outcome.
-/

namespace OneLine

/-- Signal kinds carried on the network (the TS union type Signal). -/
inductive Signal where
  | AC
  | DC
deriving DecidableEq, Repr

/-- The closed set of device types (the TS union type NodeType). -/
inductive NodeType where
  | source
  | breaker
  | bus
  | load
  | rectifier
  | inverter
deriving DecidableEq, Repr

/-- A device record.  `sourceSignal` is only meaningful for sources and
`closed` only for breakers; both are optional in the TS type. -/
structure Node where
  id : String
  type : NodeType
  x : Int := 0
  y : Int := 0
  label : String := ""
  sourceSignal : Option Signal := none
  closed : Option Bool := none
deriving DecidableEq, Repr

/-- A conductor record; `fromId`/`toId` stand for the TS fields from/to
(from is a Lean keyword). -/
structure Edge where
  id : String
  fromId : String
  fromPort : Nat
  toId : String
  toPort : Nat
deriving DecidableEq, Repr

/-- A diagram: version tag, optional name, devices and conductors. -/
structure Diagram where
  version : Nat := 1
  name : Option String := none
  nodes : List Node
  edges : List Edge
deriving DecidableEq, Repr

/-- A pin (terminal): node id and port index. -/
abbrev Pin := String × Nat

/-- The nodesById map of `sim`: the last node with the given id. -/
def lookupNode (d : Diagram) (i : String) : Option Node :=
  d.nodes.reverse.find? (fun n => n.id == i)

/-- The wire part of the pin adjacency: each conductor contributes a
bidirectional pair of arcs between its endpoint pins. -/
def wireArcs (d : Diagram) : List (Pin × Pin) :=
  d.edges.flatMap (fun e =>
    [((e.fromId, e.fromPort), (e.toId, e.toPort)),
     ((e.toId, e.toPort), (e.fromId, e.fromPort))])

/-- The internal-conduction part of the pin adjacency, one entry per
device per the switch in `sim`: closed breakers, buses and loads get a
bidirectional port-0/port-1 tie, converters a one-directional 0 to 1
arc, sources nothing.  (The guards ports.length >= 2 in the source are
statically true for these types, PORTS being a fixed table.) -/
def internalArcs (d : Diagram) : List (Pin × Pin) :=
  d.nodes.flatMap (fun n =>
    match n.type with
    | NodeType.breaker =>
        if n.closed = some true then
          [((n.id, 0), (n.id, 1)), ((n.id, 1), (n.id, 0))]
        else []
    | NodeType.bus => [((n.id, 0), (n.id, 1)), ((n.id, 1), (n.id, 0))]
    | NodeType.load => [((n.id, 0), (n.id, 1)), ((n.id, 1), (n.id, 0))]
    | NodeType.rectifier => [((n.id, 0), (n.id, 1))]
    | NodeType.inverter => [((n.id, 0), (n.id, 1))]
    | NodeType.source => [])

/-- The full arc list, wires first, as pushAdj builds it. -/
def arcs (d : Diagram) : List (Pin × Pin) :=
  wireArcs d ++ internalArcs d

/-- The adjacency list of one pin, in insertion order (the per-key list
of the JS pinAdj map). -/
def adj (d : Diagram) (p : Pin) : List Pin :=
  ((arcs d).filter (fun a => a.1 == p)).map (fun a => a.2)

/-- The signal a traversal from pin `p` carrying `s` delivers to the
adjacent pin `nb`: the body of the neighbor loop of `sim`.  Outer
`none` is the JS TypeError (a Map lookup returned undefined and its
.id was read); `some none` means the edge does not fire; `some (some t)`
propagates `t`.  Conversion constraints apply exactly when the two pins
belong to the same node. -/
def outSig (d : Diagram) (p : Pin) (s : Signal) (nb : Pin) : Option (Option Signal) :=
  match lookupNode d p.1, lookupNode d nb.1 with
  | some node, some _ =>
      some (
        if nb.1 = p.1 then
          match node.type with
          | NodeType.rectifier =>
              if p.2 = 0 ∧ nb.2 = 1 ∧ s = Signal.AC then some Signal.DC else none
          | NodeType.inverter =>
              if p.2 = 0 ∧ nb.2 = 1 ∧ s = Signal.DC then some Signal.AC else none
          | _ => some s
        else some s)
  | _, _ => none

/-- The BFS worklist state: `reached` is the reached map as the set of
its (pin, signal) pairs (the JS never stores an empty per-pin set), and
`queue` the pending states in FIFO order. -/
structure SearchState where
  reached : List (Pin × Signal)
  queue : List (Pin × Signal)
deriving DecidableEq, Repr

/-- Processing of a single neighbor `nb` of the current state `cur`:
compute outSig, and on a firing signal not yet recorded, record it and
enqueue it (addReach plus the conditional push). -/
def processNb (d : Diagram) (cur : Pin × Signal) (st : SearchState) (nb : Pin) :
    Option SearchState :=
  match outSig d cur.1 cur.2 nb with
  | none => none
  | some none => some st
  | some (some t) =>
      if (nb, t) ∈ st.reached then some st
      else some { reached := st.reached ++ [(nb, t)], queue := st.queue ++ [(nb, t)] }

/-- The neighbor loop: process the neighbors left to right. -/
def processNbs (d : Diagram) (cur : Pin × Signal) :
    List Pin → SearchState → Option SearchState
  | [], st => some st
  | nb :: nbs, st =>
      match processNb d cur st nb with
      | none => none
      | some st1 => processNbs d cur nbs st1

/-- The while loop of `sim`, fuel-indexed: pop the queue head, process
its neighbors, repeat.  Out of fuel, the current state is returned as
is; `fuelBound` fuel below provably reaches the empty queue. -/
def run (d : Diagram) : Nat → SearchState → Option SearchState
  | 0, st => some st
  | fuel + 1, st =>
      match st.queue with
      | [] => some st
      | cur :: rest =>
          match processNbs d cur (adj d cur.1) { st with queue := rest } with
          | none => none
          | some st1 => run d fuel st1

/-- Seeding of one node: a source with a declared kind overwrites the
pin's reached set with the singleton (Map.set) and pushes the state. -/
def seedNode (st : SearchState) (n : Node) : SearchState :=
  match n.type, n.sourceSignal with
  | NodeType.source, some s =>
      { reached := (st.reached.filter (fun q => !(q.1 == (n.id, 0)))) ++ [((n.id, 0), s)],
        queue := st.queue ++ [((n.id, 0), s)] }
  | _, _ => st

/-- The propagation's initial state: every source seeded in node-list
order. -/
def initState (d : Diagram) : SearchState :=
  d.nodes.foldl seedNode { reached := [], queue := [] }

/-- All pins the search can ever record: source output pins and arc
targets. -/
def pinUniv (d : Diagram) : List Pin :=
  ((d.nodes.map (fun n => ((n.id, 0) : Pin))) ++ (arcs d).map (fun a => a.2)).dedup

/-- All (pin, signal) states the search can ever record. -/
def pairUniv (d : Diagram) : List (Pin × Signal) :=
  (pinUniv d).flatMap (fun p => [(p, Signal.AC), (p, Signal.DC)])

/-- Fuel that provably lets `run` drain its queue. -/
def fuelBound (d : Diagram) : Nat :=
  2 * (pairUniv d).length + (initState d).queue.length

/-- The search's final state (none = the JS sim threw). -/
def simState (d : Diagram) : Option SearchState :=
  run d (fuelBound d) (initState d)

/-- Did any signal reach pin `p`?  (reached.get(p) is defined.) -/
def pinHot (st : SearchState) (p : Pin) : Bool :=
  st.reached.any (fun q => q.1 == p)

/-- Does the reached set of pin `p` contain signal `s`? -/
def pinHas (st : SearchState) (p : Pin) (s : Signal) : Bool :=
  (p, s) ∈ st.reached

/-- Per-conductor classification, exactly the derivation loop of `sim`:
defined (hot) iff both endpoint pins were reached, and then DC iff
either side has DC and not both sides have AC. -/
def classify (st : SearchState) (e : Edge) : Option Signal :=
  if pinHot st (e.fromId, e.fromPort) && pinHot st (e.toId, e.toPort) then
    some
      (if (pinHas st (e.fromId, e.fromPort) Signal.DC
            || pinHas st (e.toId, e.toPort) Signal.DC)
          && !(pinHas st (e.fromId, e.fromPort) Signal.AC
            && pinHas st (e.toId, e.toPort) Signal.AC)
       then Signal.DC else Signal.AC)
  else none

/-- The record `sim` returns: energized node ids, energized conductor
ids (as sets, like the JS Set objects) and the conductor-id-to-signal
map (as its lookup function, like the JS Map). -/
@[ext]
structure SimResult where
  nodeHot : Finset String
  edgeHot : Finset String
  edgeSig : String → Option Signal

instance : Inhabited SimResult :=
  ⟨{ nodeHot := ∅, edgeHot := ∅, edgeSig := fun _ => none }⟩

/-- Derivation of node/edge energized state and edge signal from the
final search state (lines 155-174 of the source).  edgeSig is keyed by
edge id; for a duplicated id the later Map.set wins, hence the reversed
find. -/
def deriveResult (d : Diagram) (st : SearchState) : SimResult where
  nodeHot := (st.reached.map (fun q => q.1.1)).toFinset
  edgeHot := ((d.edges.filter (fun e => (classify st e).isSome)).map (fun e => e.id)).toFinset
  edgeSig := fun i =>
    ((d.edges.filterMap (fun e => (classify st e).map (fun s => (e.id, s)))).reverse.find?
      (fun q => q.1 == i)).map (fun q => q.2)

/-- The engine: the useMemo body, a pure function of the diagram. -/
def sim (d : Diagram) : Option SimResult :=
  (simState d).map (deriveResult d)

/-- The engine's output, with the crash case mapped to the empty
result, for stating subset and equality claims. -/
def simOut (d : Diagram) : SimResult :=
  (sim d).getD default

/-- The final search state with the crash case mapped to the empty
state. -/
def simStateD (d : Diagram) : SearchState :=
  (simState d).getD { reached := [], queue := [] }

/-- The signals recorded at one pin, for reading a pin's reached set
off the final state. -/
def reachedSigs (st : SearchState) (p : Pin) : List Signal :=
  (st.reached.filter (fun q => q.1 == p)).map (fun q => q.2)

/-- The toggleBreaker action: flip `closed` (JS !closed, with undefined
counting as open) on every node with the given id and type breaker,
leaving everything else as is. -/
def toggleBreaker (d : Diagram) (i : String) : Diagram :=
  { d with
    nodes := d.nodes.map (fun n =>
      if n.id = i ∧ n.type = NodeType.breaker then
        { n with closed := some (!(n.closed.getD false)) }
      else n) }

/-- A parsed JSON payload as the Load handler sees it: the lists may be
absent (undefined or null in JS, both falsy). -/
structure RawDiagram where
  version : Option Nat := none
  name : Option String := none
  nodes : Option (List Node) := none
  edges : Option (List Edge) := none

/-- The shape check of the Load handler: accept iff nodes and edges are
both present, else throw "Bad diagram JSON". -/
def parseLoad (raw : RawDiagram) : Except String Diagram :=
  match raw.nodes, raw.edges with
  | some ns, some es =>
      Except.ok { version := raw.version.getD 1, name := raw.name, nodes := ns, edges := es }
  | _, _ => Except.error "Bad diagram JSON"

/-- The whole Load click: on success the payload becomes the active
diagram, on failure (the catch branch alerts) the current diagram is
kept. -/
def loadAction (current : Diagram) (raw : RawDiagram) : Diagram :=
  match parseLoad raw with
  | Except.ok d2 => d2
  | Except.error _ => current

/-- Seed relation of the propagation: source output pins with their
declared kind. -/
def isSeed (d : Diagram) (p : Pin) (s : Signal) : Prop :=
  ∃ n ∈ d.nodes, n.type = NodeType.source ∧ n.sourceSignal = some s ∧ p = (n.id, 0)

/-- One firing propagation step: an arc whose traversal delivers `t`. -/
def fires (d : Diagram) (p : Pin) (s : Signal) (q : Pin) (t : Signal) : Prop :=
  (p, q) ∈ arcs d ∧ outSig d p s q = some (some t)

/-- The reachability closure the search computes: least relation
containing the seeds and closed under firing steps. -/
inductive Reaches (d : Diagram) : Pin → Signal → Prop where
  | seed : ∀ {p s}, isSeed d p s → Reaches d p s
  | step : ∀ {p s q t}, Reaches d p s → fires d p s q t → Reaches d q t

/-- Node-id uniqueness, the diagram invariant of the spec's data
model. -/
def NodupIds (d : Diagram) : Prop :=
  (d.nodes.map Node.id).Nodup

/-- Edge-id uniqueness. -/
def NodupEdgeIds (d : Diagram) : Prop :=
  (d.edges.map Edge.id).Nodup

/-- Every conductor endpoint references an existing device id. -/
def WFRefs (d : Diagram) : Prop :=
  ∀ e ∈ d.edges, (lookupNode d e.fromId).isSome ∧ (lookupNode d e.toId).isSome

instance (d : Diagram) : Decidable (NodupIds d) := by
  unfold NodupIds; infer_instance

instance (d : Diagram) : Decidable (NodupEdgeIds d) := by
  unfold NodupEdgeIds; infer_instance

instance (d : Diagram) : Decidable (WFRefs d) := by
  unfold WFRefs; infer_instance

/-! ### Step-level lemmas -/

theorem mem_adj {d : Diagram} {p nb : Pin} : nb ∈ adj d p ↔ (p, nb) ∈ arcs d := by
  unfold adj
  simp only [List.mem_map, List.mem_filter, beq_iff_eq]
  constructor
  · rintro ⟨a, ⟨ha, h1⟩, h2⟩
    have : a = (p, nb) := by
      cases a
      simp_all
    exact this ▸ ha
  · intro h
    exact ⟨(p, nb), ⟨h, rfl⟩, rfl⟩

theorem processNb_cases (d : Diagram) (cur : Pin × Signal) (st : SearchState) (nb : Pin) :
    (processNb d cur st nb = none ∧ outSig d cur.1 cur.2 nb = none) ∨
    (processNb d cur st nb = some st ∧
      ∀ t, outSig d cur.1 cur.2 nb = some (some t) → (nb, t) ∈ st.reached) ∨
    (∃ t, outSig d cur.1 cur.2 nb = some (some t) ∧ (nb, t) ∉ st.reached ∧
      processNb d cur st nb =
        some { reached := st.reached ++ [(nb, t)], queue := st.queue ++ [(nb, t)] }) := by
  unfold processNb
  cases h : outSig d cur.1 cur.2 nb with
  | none => exact Or.inl ⟨rfl, rfl⟩
  | some o =>
    cases o with
    | none =>
      refine Or.inr (Or.inl ⟨rfl, ?_⟩)
      intro t ht
      simp at ht
    | some t =>
      by_cases hm : (nb, t) ∈ st.reached
      · refine Or.inr (Or.inl ⟨by simp [hm], ?_⟩)
        intro u hu
        obtain rfl : t = u := by simpa using hu
        exact hm
      · exact Or.inr (Or.inr ⟨t, rfl, hm, by simp [hm]⟩)

/-- Everything `processNbs` establishes in one induction: the new state
extends reached and queue by one common list `l` of freshly recorded
pairs, each justified by a firing neighbor, and afterwards every firing
neighbor's pair is recorded. -/
theorem processNbs_spec (d : Diagram) (cur : Pin × Signal) :
    ∀ (nbs : List Pin) (st st1 : SearchState), processNbs d cur nbs st = some st1 →
    ∃ l, st1.reached = st.reached ++ l ∧ st1.queue = st.queue ++ l ∧ l.Nodup ∧
      (∀ q ∈ l, q ∉ st.reached) ∧
      (∀ q ∈ l, q.1 ∈ nbs ∧ outSig d cur.1 cur.2 q.1 = some (some q.2)) ∧
      (∀ nb ∈ nbs, ∀ t, outSig d cur.1 cur.2 nb = some (some t) → (nb, t) ∈ st1.reached) := by
  intro nbs
  induction nbs with
  | nil =>
    intro st st1 h
    obtain rfl : st = st1 := by simpa [processNbs] using h
    exact ⟨[], by simp⟩
  | cons nb nbs ih =>
    intro st st1 h
    unfold processNbs at h
    rcases processNb_cases d cur st nb with ⟨hn, _⟩ | ⟨hs, hrec⟩ | ⟨t, hout, hnm, hext⟩
    · rw [hn] at h; exact absurd h (by simp)
    · rw [hs] at h
      obtain ⟨l, h1, h2, h3, h4, h5, h6⟩ := ih st st1 h
      refine ⟨l, h1, h2, h3, h4, ?_, ?_⟩
      · intro q hq
        obtain ⟨hq1, hq2⟩ := h5 q hq
        exact ⟨List.mem_cons_of_mem _ hq1, hq2⟩
      · intro m hm t ht
        rcases List.mem_cons.1 hm with rfl | hm2
        · have := hrec t ht
          rw [h1]
          exact List.mem_append_left _ this
        · exact h6 m hm2 t ht
    · rw [hext] at h
      obtain ⟨l, h1, h2, h3, h4, h5, h6⟩ :=
        ih { reached := st.reached ++ [(nb, t)], queue := st.queue ++ [(nb, t)] } st1 h
      simp only at h1 h2 h4
      refine ⟨(nb, t) :: l, by simpa using h1, by simpa using h2, ?_, ?_, ?_, ?_⟩
      · refine List.nodup_cons.2 ⟨?_, h3⟩
        intro hmem
        have := h4 _ hmem
        simp at this
      · intro q hq
        rcases List.mem_cons.1 hq with rfl | hq2
        · exact hnm
        · intro hq3
          exact h4 q hq2 (by simp [hq3])
      · intro q hq
        rcases List.mem_cons.1 hq with rfl | hq2
        · exact ⟨List.mem_cons_self _ _, hout⟩
        · obtain ⟨hq1, hq2⟩ := h5 q hq2
          exact ⟨List.mem_cons_of_mem _ hq1, hq2⟩
      · intro m hm u hu
        rcases List.mem_cons.1 hm with rfl | hm2
        · obtain rfl : t = u := by rw [hout] at hu; simpa using hu
          rw [h1]
          simp
        · exact h6 m hm2 u hu

/-- processNbs crashes only when a node lookup on the traversal failed. -/
theorem processNbs_isSome (d : Diagram) (cur : Pin × Signal)
    (hcur : (lookupNode d cur.1.1).isSome) :
    ∀ (nbs : List Pin) (st : SearchState), (∀ nb ∈ nbs, (lookupNode d nb.1).isSome) →
    (processNbs d cur nbs st).isSome := by
  intro nbs
  induction nbs with
  | nil => intro st _; simp [processNbs]
  | cons nb nbs ih =>
    intro st hnb
    have hout : outSig d cur.1 cur.2 nb ≠ none := by
      unfold outSig
      obtain ⟨n1, hn1⟩ := Option.isSome_iff_exists.1 hcur
      obtain ⟨n2, hn2⟩ := Option.isSome_iff_exists.1 (hnb nb (List.mem_cons_self _ _))
      rw [hn1, hn2]
      simp
    unfold processNbs
    rcases processNb_cases d cur st nb with ⟨_, hn⟩ | ⟨hs, _⟩ | ⟨t, _, _, hext⟩
    · exact absurd hn hout
    · rw [hs]
      exact ih st (fun m hm => hnb m (List.mem_cons_of_mem _ hm))
    · rw [hext]
      exact ih _ (fun m hm => hnb m (List.mem_cons_of_mem _ hm))

/-! ### Run-level lemmas: monotone growth, no crash on well-formed
references, and termination with the chosen fuel -/

theorem run_succ (d : Diagram) (fuel : Nat) (st : SearchState) :
    run d (fuel + 1) st =
      match st.queue with
      | [] => some st
      | cur :: rest =>
          match processNbs d cur (adj d cur.1) { st with queue := rest } with
          | none => none
          | some st1 => run d fuel st1 := rfl

theorem run_of_queue_nil (d : Diagram) (fuel : Nat) {st : SearchState}
    (h : st.queue = []) : run d fuel st = some st := by
  cases fuel with
  | zero => rfl
  | succ n => rw [run_succ, h]

theorem run_succ_cons (d : Diagram) (fuel : Nat) {st : SearchState}
    {cur : Pin × Signal} {rest : List (Pin × Signal)} (h : st.queue = cur :: rest) :
    run d (fuel + 1) st =
      match processNbs d cur (adj d cur.1) { st with queue := rest } with
      | none => none
      | some st1 => run d fuel st1 := by
  rw [run_succ, h]

theorem run_reached_mono (d : Diagram) :
    ∀ (fuel : Nat) (st st1 : SearchState), run d fuel st = some st1 →
    ∃ l, st1.reached = st.reached ++ l := by
  intro fuel
  induction fuel with
  | zero =>
    intro st st1 h
    obtain rfl : st = st1 := by simpa [run] using h
    exact ⟨[], by simp⟩
  | succ n ih =>
    intro st st1 h
    cases hq : st.queue with
    | nil =>
      rw [run_of_queue_nil d _ hq] at h
      obtain rfl : st = st1 := by simpa using h
      exact ⟨[], by simp⟩
    | cons cur rest =>
      rw [run_succ_cons d n hq] at h
      cases hp : processNbs d cur (adj d cur.1) { st with queue := rest } with
      | none => rw [hp] at h; exact absurd h (by simp)
      | some st2 =>
        rw [hp] at h
        obtain ⟨l1, hl1, _⟩ := processNbs_spec d cur _ _ _ hp
        obtain ⟨l2, hl2⟩ := ih st2 st1 h
        exact ⟨l1 ++ l2, by rw [hl2, hl1]; simp⟩

/-- Pins in the queue always name existing nodes once they do initially;
with well-formed conductor references the search therefore never
crashes. -/
theorem run_isSome (d : Diagram) (hw : ∀ (p nb : Pin), (p, nb) ∈ arcs d →
      (lookupNode d p.1).isSome ∧ (lookupNode d nb.1).isSome) :
    ∀ (fuel : Nat) (st : SearchState),
      (∀ q ∈ st.queue, (lookupNode d q.1.1).isSome) → (run d fuel st).isSome := by
  intro fuel
  induction fuel with
  | zero => intro st _; simp [run]
  | succ n ih =>
    intro st hq
    cases hqs : st.queue with
    | nil => rw [run_of_queue_nil d _ hqs]; simp
    | cons cur rest =>
      rw [run_succ_cons d n hqs]
      have hcur : (lookupNode d cur.1.1).isSome := hq cur (by rw [hqs]; exact List.mem_cons_self _ _)
      have hnbs : ∀ nb ∈ adj d cur.1, (lookupNode d nb.1).isSome := by
        intro nb hnb
        exact (hw cur.1 nb (mem_adj.1 hnb)).2
      obtain ⟨st1, hst1⟩ := Option.isSome_iff_exists.1
        (processNbs_isSome d cur hcur (adj d cur.1) { st with queue := rest } hnbs)
      rw [hst1]
      refine ih st1 ?_
      obtain ⟨l, _, hqeq, _, _, hjust, _⟩ := processNbs_spec d cur _ _ _ hst1
      intro q hmem
      rw [hqeq] at hmem
      rcases List.mem_append.1 hmem with hm | hm
      · exact hq q (by rw [hqs]; exact List.mem_cons_of_mem _ hm)
      · have := (hjust q hm).1
        exact hnbs q.1 this

theorem mem_pairUniv_of_arc {d : Diagram} {p nb : Pin} (h : (p, nb) ∈ arcs d) (s : Signal) :
    (nb, s) ∈ pairUniv d := by
  unfold pairUniv pinUniv
  rw [List.mem_flatMap]
  refine ⟨nb, ?_, by cases s <;> simp⟩
  rw [List.mem_dedup, List.mem_append]
  exact Or.inr (List.mem_map.2 ⟨(p, nb), h, rfl⟩)

/-- The termination measure: twice the unreached part of the state
universe plus the queue length. -/
def muSt (d : Diagram) (st : SearchState) : Nat :=
  2 * ((pairUniv d).filter (fun q => decide (q ∉ st.reached))).length + st.queue.length

theorem filter_count_step (U R l : List (Pin × Signal)) (hl : l.Nodup)
    (hfresh : ∀ q ∈ l, q ∉ R) (hsub : ∀ q ∈ l, q ∈ U) :
    (U.filter (fun q => decide (q ∉ R ++ l))).length + l.length ≤
      (U.filter (fun q => decide (q ∉ R))).length := by
  set F := U.filter (fun q => decide (q ∉ R)) with hF
  have h1 : U.filter (fun q => decide (q ∉ R ++ l)) =
      F.filter (fun q => decide (q ∉ l)) := by
    rw [hF, List.filter_filter]
    apply List.filter_congr
    intro a _
    by_cases h1 : a ∈ R <;> by_cases h2 : a ∈ l <;> simp [h1, h2]
  have h2 : l.length ≤ (F.filter (fun q => decide (q ∈ l))).length := by
    refine (List.subperm_of_subset hl ?_).length_le
    intro q hq
    rw [List.mem_filter, hF, List.mem_filter]
    exact ⟨⟨hsub q hq, by simpa using hfresh q hq⟩, by simpa using hq⟩
  have h3 : F.length =
      (F.filter (fun q => decide (q ∈ l))).length +
        (F.filter (fun q => decide (q ∉ l))).length := by
    have := List.length_eq_length_filter_add (l := F) (fun q => decide (q ∈ l))
    simpa using this
  have h4 : (F.filter (fun q => decide (q ∉ l))).length ≤
      F.length - (F.filter (fun q => decide (q ∈ l))).length := by omega
  rw [h1]
  omega

theorem muSt_step (d : Diagram) {st st1 : SearchState} {cur : Pin × Signal}
    {rest : List (Pin × Signal)} (hq : st.queue = cur :: rest)
    (h : processNbs d cur (adj d cur.1) { st with queue := rest } = some st1) :
    muSt d st1 < muSt d st := by
  obtain ⟨l, hr, hqe, hnd, hfresh, hjust, _⟩ := processNbs_spec d cur _ _ _ h
  simp only at hr hqe hfresh
  have hsub : ∀ q ∈ l, q ∈ pairUniv d := by
    intro q hmem
    obtain ⟨hadj, _⟩ := hjust q hmem
    exact mem_pairUniv_of_arc (mem_adj.1 hadj) q.2
  have hcount := filter_count_step (pairUniv d) st.reached l hnd hfresh hsub
  unfold muSt
  rw [hr, hqe, hq]
  simp only [List.length_append, List.length_cons]
  omega

theorem run_stable (d : Diagram) :
    ∀ (fuel : Nat) (st : SearchState), muSt d st ≤ fuel →
    (∀ extra, run d (fuel + extra) st = run d fuel st) ∧
    (run d fuel st = none ∨ ∃ st1, run d fuel st = some st1 ∧ st1.queue = []) := by
  intro fuel
  induction fuel with
  | zero =>
    intro st hmu
    have hq : st.queue = [] := by
      unfold muSt at hmu
      exact List.length_eq_zero.1 (by omega)
    rw [run_of_queue_nil d 0 hq]
    exact ⟨fun extra => by rw [run_of_queue_nil d _ hq], Or.inr ⟨st, rfl, hq⟩⟩
  | succ n ih =>
    intro st hmu
    cases hq : st.queue with
    | nil =>
      rw [run_of_queue_nil d _ hq]
      exact ⟨fun extra => by rw [run_of_queue_nil d _ hq], Or.inr ⟨st, rfl, hq⟩⟩
    | cons cur rest =>
      cases hp : processNbs d cur (adj d cur.1) { st with queue := rest } with
      | none =>
        have hrun : run d (n + 1) st = none := by rw [run_succ_cons d n hq, hp]
        refine ⟨?_, Or.inl hrun⟩
        intro extra
        have h2 : n + 1 + extra = (n + extra) + 1 := by omega
        rw [hrun, h2, run_succ_cons d (n + extra) hq, hp]
      | some st1 =>
        have hlt : muSt d st1 < muSt d st := muSt_step d hq hp
        have hle : muSt d st1 ≤ n := by omega
        obtain ⟨ihs, ihr⟩ := ih st1 hle
        have hrun : run d (n + 1) st = run d n st1 := by rw [run_succ_cons d n hq, hp]
        refine ⟨?_, by rw [hrun]; exact ihr⟩
        intro extra
        have h2 : n + 1 + extra = (n + extra) + 1 := by omega
        rw [hrun, h2, run_succ_cons d (n + extra) hq, hp]
        exact ihs extra

theorem muSt_init_le (d : Diagram) : muSt d (initState d) ≤ fuelBound d := by
  unfold muSt fuelBound
  have := List.length_filter_le (fun q => decide (q ∉ (initState d).reached)) (pairUniv d)
  omega

theorem run_fuelBound_stable (d : Diagram) (extra : Nat) :
    run d (fuelBound d + extra) (initState d) = simState d :=
  (run_stable d (fuelBound d) (initState d) (muSt_init_le d)).1 extra

theorem simState_queue_nil {d : Diagram} {st : SearchState} (h : simState d = some st) :
    st.queue = [] := by
  rcases (run_stable d (fuelBound d) (initState d) (muSt_init_le d)).2 with h1 | ⟨st1, h1, h2⟩
  · rw [simState] at h; rw [h1] at h; exact absurd h (by simp)
  · rw [simState] at h; rw [h1] at h
    obtain rfl : st1 = st := by simpa using h
    exact h2

/-! ### Seeding lemmas -/

/-- The seed a single node contributes, if any. -/
def seedFn (n : Node) : Option (Pin × Signal) :=
  match n.type, n.sourceSignal with
  | NodeType.source, some s => some (((n.id, 0) : Pin), s)
  | _, _ => none

/-- All seeds, in node-list order. -/
def seedList (d : Diagram) : List (Pin × Signal) :=
  d.nodes.filterMap seedFn

theorem seedNode_of_seedFn_some {st : SearchState} {n : Node} {q : Pin × Signal}
    (h : seedFn n = some q) :
    seedNode st n =
      { reached := (st.reached.filter (fun r => !(r.1 == (n.id, 0)))) ++ [q],
        queue := st.queue ++ [q] } := by
  unfold seedFn at h
  unfold seedNode
  cases ht : n.type <;> cases hs : n.sourceSignal <;> simp_all

theorem seedNode_of_seedFn_none {st : SearchState} {n : Node}
    (h : seedFn n = none) : seedNode st n = st := by
  unfold seedFn at h
  unfold seedNode
  cases ht : n.type <;> cases hs : n.sourceSignal <;> simp_all

theorem seedFn_fst {n : Node} {q : Pin × Signal} (h : seedFn n = some q) :
    q.1 = (n.id, 0) := by
  unfold seedFn at h
  cases ht : n.type <;> cases hs : n.sourceSignal <;> simp_all
  exact (congrArg Prod.fst h).symm

theorem foldl_seed_queue :
    ∀ (ns : List Node) (st : SearchState),
      (ns.foldl seedNode st).queue = st.queue ++ ns.filterMap seedFn := by
  intro ns
  induction ns with
  | nil => intro st; simp
  | cons n ns ih =>
    intro st
    cases h : seedFn n with
    | none => rw [List.foldl_cons, seedNode_of_seedFn_none h, ih, List.filterMap_cons_none h]
    | some q =>
      rw [List.foldl_cons, seedNode_of_seedFn_some h, ih, List.filterMap_cons_some h]
      simp

theorem initState_queue (d : Diagram) : (initState d).queue = seedList d := by
  unfold initState seedList
  rw [foldl_seed_queue]
  rfl

theorem foldl_seed_reached_sub :
    ∀ (ns : List Node) (st : SearchState), (∀ q ∈ st.reached, q ∈ st.queue) →
      ∀ q ∈ (ns.foldl seedNode st).reached, q ∈ (ns.foldl seedNode st).queue := by
  intro ns
  induction ns with
  | nil => intro st h; exact h
  | cons n ns ih =>
    intro st h
    rw [List.foldl_cons]
    refine ih (seedNode st n) ?_
    cases hs : seedFn n with
    | none => rw [seedNode_of_seedFn_none hs]; exact h
    | some q =>
      rw [seedNode_of_seedFn_some hs]
      intro r hr
      simp only [List.mem_append] at hr ⊢
      rcases hr with hr | hr
      · exact Or.inl (h r (List.mem_of_mem_filter hr))
      · exact Or.inr hr

theorem initState_reached_sub (d : Diagram) :
    ∀ q ∈ (initState d).reached, q ∈ (initState d).queue := by
  unfold initState
  refine foldl_seed_reached_sub d.nodes _ ?_
  intro q hq
  simp at hq

theorem foldl_seed_reached :
    ∀ (ns : List Node) (st : SearchState), (ns.map Node.id).Nodup →
      (∀ q ∈ st.reached, q.1.1 ∉ ns.map Node.id) →
      (ns.foldl seedNode st).reached = st.reached ++ ns.filterMap seedFn := by
  intro ns
  induction ns with
  | nil => intro st _ _; simp
  | cons n ns ih =>
    intro st hnd hdis
    rw [List.map_cons, List.nodup_cons] at hnd
    rw [List.foldl_cons]
    cases hs : seedFn n with
    | none =>
      rw [seedNode_of_seedFn_none hs, List.filterMap_cons_none hs]
      refine ih st hnd.2 ?_
      intro q hq
      have := hdis q hq
      rw [List.map_cons, List.mem_cons] at this
      exact fun hc => this (Or.inr hc)
    | some q =>
      rw [seedNode_of_seedFn_some hs, List.filterMap_cons_some hs]
      have hfix : st.reached.filter (fun r => !(r.1 == (n.id, 0))) = st.reached := by
        rw [List.filter_eq_self]
        intro r hr
        have hne : r.1.1 ≠ n.id := by
          have := hdis r hr
          rw [List.map_cons, List.mem_cons] at this
          exact fun hc => this (Or.inl hc)
        simp only [Bool.not_eq_true']
        rw [beq_eq_false_iff_ne]
        intro hc
        exact hne (by rw [hc])
      rw [hfix]
      have := ih { reached := st.reached ++ [q], queue := st.queue ++ [q] } hnd.2 ?_
      · rw [this]
        simp
      · intro r hr
        simp only [List.mem_append, List.mem_singleton] at hr
        rcases hr with hr | rfl
        · have := hdis r hr
          rw [List.map_cons, List.mem_cons] at this
          exact fun hc => this (Or.inr hc)
        · rw [seedFn_fst hs]
          exact hnd.1

theorem initState_reached (d : Diagram) (hN : NodupIds d) :
    (initState d).reached = seedList d := by
  unfold initState seedList
  rw [foldl_seed_reached d.nodes _ hN (by intro q hq; simp at hq)]
  rfl

theorem mem_seedList {d : Diagram} {p : Pin} {s : Signal} :
    (p, s) ∈ seedList d ↔ isSeed d p s := by
  unfold seedList isSeed
  rw [List.mem_filterMap]
  constructor
  · rintro ⟨n, hn, hf⟩
    unfold seedFn at hf
    refine ⟨n, hn, ?_⟩
    cases ht : n.type <;> cases hs : n.sourceSignal <;> simp_all
  · rintro ⟨n, hn, ht, hs, rfl⟩
    exact ⟨n, hn, by unfold seedFn; rw [ht, hs]⟩

theorem lookupNode_isSome_of_mem {d : Diagram} {n : Node} (h : n ∈ d.nodes) :
    (lookupNode d n.id).isSome := by
  unfold lookupNode
  rw [List.find?_isSome]
  exact ⟨n, by simpa using h, by simp⟩

/-! ### Soundness and completeness of the search against the closure -/

/-- Soundness invariant: everything recorded or queued is in the
closure. -/
def SoundState (d : Diagram) (st : SearchState) : Prop :=
  (∀ q ∈ st.reached, Reaches d q.1 q.2) ∧ (∀ q ∈ st.queue, Reaches d q.1 q.2)

theorem run_sound (d : Diagram) :
    ∀ (fuel : Nat) (st st1 : SearchState), SoundState d st →
      run d fuel st = some st1 → SoundState d st1 := by
  intro fuel
  induction fuel with
  | zero =>
    intro st st1 hs h
    obtain rfl : st = st1 := by simpa [run] using h
    exact hs
  | succ n ih =>
    intro st st1 hs h
    cases hq : st.queue with
    | nil =>
      rw [run_of_queue_nil d _ hq] at h
      obtain rfl : st = st1 := by simpa using h
      exact hs
    | cons cur rest =>
      rw [run_succ_cons d n hq] at h
      cases hp : processNbs d cur (adj d cur.1) { st with queue := rest } with
      | none => rw [hp] at h; exact absurd h (by simp)
      | some st2 =>
        rw [hp] at h
        refine ih st2 st1 ?_ h
        obtain ⟨l, hr, hqe, _, _, hjust, _⟩ := processNbs_spec d cur _ _ _ hp
        simp only at hr hqe
        have hcur : Reaches d cur.1 cur.2 := hs.2 cur (by rw [hq]; exact List.mem_cons_self _ _)
        have hl : ∀ q ∈ l, Reaches d q.1 q.2 := by
          intro q hmem
          obtain ⟨hadj, hout⟩ := hjust q hmem
          exact Reaches.step hcur ⟨mem_adj.1 hadj, hout⟩
        constructor
        · intro q hmem
          rw [hr] at hmem
          rcases List.mem_append.1 hmem with hm | hm
          · exact hs.1 q hm
          · exact hl q hm
        · intro q hmem
          rw [hqe] at hmem
          rcases List.mem_append.1 hmem with hm | hm
          · exact hs.2 q (by rw [hq]; exact List.mem_cons_of_mem _ hm)
          · exact hl q hm

/-- Completeness invariant: a recorded pair is still queued or all its
firing successors are already recorded. -/
def CompState (d : Diagram) (st : SearchState) : Prop :=
  ∀ q ∈ st.reached, q ∈ st.queue ∨ ∀ p t, fires d q.1 q.2 p t → (p, t) ∈ st.reached

theorem run_comp (d : Diagram) :
    ∀ (fuel : Nat) (st st1 : SearchState), CompState d st →
      run d fuel st = some st1 → CompState d st1 := by
  intro fuel
  induction fuel with
  | zero =>
    intro st st1 hc h
    obtain rfl : st = st1 := by simpa [run] using h
    exact hc
  | succ n ih =>
    intro st st1 hc h
    cases hq : st.queue with
    | nil =>
      rw [run_of_queue_nil d _ hq] at h
      obtain rfl : st = st1 := by simpa using h
      exact hc
    | cons cur rest =>
      rw [run_succ_cons d n hq] at h
      cases hp : processNbs d cur (adj d cur.1) { st with queue := rest } with
      | none => rw [hp] at h; exact absurd h (by simp)
      | some st2 =>
        rw [hp] at h
        refine ih st2 st1 ?_ h
        obtain ⟨l, hr, hqe, _, _, _, hclosed⟩ := processNbs_spec d cur _ _ _ hp
        simp only at hr hqe
        intro q hmem
        rw [hr] at hmem
        rcases List.mem_append.1 hmem with hm | hm
        · rcases hc q hm with hqu | hsucc
          · rw [hq] at hqu
            rcases List.mem_cons.1 hqu with rfl | hrest
            · refine Or.inr ?_
              rintro p t ⟨harc, hout⟩
              exact hclosed p (mem_adj.2 harc) t hout
            · exact Or.inl (by rw [hqe]; exact List.mem_append_left _ hrest)
          · refine Or.inr ?_
            intro p t hf
            rw [hr]
            exact List.mem_append_left _ (hsucc p t hf)
        · exact Or.inl (by rw [hqe]; exact List.mem_append_right _ hm)

theorem initState_sound (d : Diagram) : SoundState d (initState d) := by
  have hq : ∀ q ∈ (initState d).queue, Reaches d q.1 q.2 := by
    intro q hmem
    rw [initState_queue] at hmem
    have : isSeed d q.1 q.2 := mem_seedList.1 (by rwa [show ((q.1, q.2) : Pin × Signal) = q from rfl])
    exact Reaches.seed this
  exact ⟨fun q hmem => hq q (initState_reached_sub d q hmem), hq⟩

theorem initState_comp (d : Diagram) : CompState d (initState d) := by
  intro q hmem
  exact Or.inl (initState_reached_sub d q hmem)

/-- The recorded pairs of a completed search are exactly the
reachability closure. -/
theorem simState_reached_iff {d : Diagram} {st : SearchState} (hN : NodupIds d)
    (h : simState d = some st) :
    ∀ p s, ((p, s) ∈ st.reached ↔ Reaches d p s) := by
  have hq : st.queue = [] := simState_queue_nil h
  have hsound := run_sound d (fuelBound d) (initState d) st (initState_sound d) h
  have hcomp := run_comp d (fuelBound d) (initState d) st (initState_comp d) h
  have hclosed : ∀ q ∈ st.reached, ∀ p t, fires d q.1 q.2 p t → (p, t) ∈ st.reached := by
    intro q hmem
    rcases hcomp q hmem with hqu | hsucc
    · rw [hq] at hqu; exact absurd hqu (by simp)
    · exact hsucc
  have hmono := run_reached_mono d (fuelBound d) (initState d) st h
  intro p s
  constructor
  · intro hmem
    exact hsound.1 (p, s) hmem
  · intro hr
    induction hr with
    | seed hs =>
      obtain ⟨l, hl⟩ := hmono
      rw [hl]
      refine List.mem_append_left _ ?_
      rw [initState_reached d hN]
      exact mem_seedList.2 hs
    | step hr hf ih => exact hclosed _ ih _ _ hf

/-! ### Derived-state characterizations -/

theorem bool_eq_of_iff {a b : Bool} (h : a = true ↔ b = true) : a = b := by
  cases a <;> cases b <;> simp_all

theorem pinHot_iff {st : SearchState} {p : Pin} :
    pinHot st p = true ↔ ∃ s, (p, s) ∈ st.reached := by
  unfold pinHot
  rw [List.any_eq_true]
  constructor
  · rintro ⟨q, hq, hb⟩
    have hq1 : q.1 = p := by simpa using hb
    exact ⟨q.2, by rw [← hq1]; simpa using hq⟩
  · rintro ⟨s, hs⟩
    exact ⟨(p, s), hs, by simp⟩

theorem pinHas_iff {st : SearchState} {p : Pin} {s : Signal} :
    pinHas st p s = true ↔ (p, s) ∈ st.reached := by
  unfold pinHas
  simp

theorem pinHot_congr {st st1 : SearchState}
    (h : ∀ q : Pin × Signal, q ∈ st.reached ↔ q ∈ st1.reached) (p : Pin) :
    pinHot st p = pinHot st1 p := by
  refine bool_eq_of_iff ?_
  rw [pinHot_iff, pinHot_iff]
  exact exists_congr (fun s => h (p, s))

theorem pinHas_congr {st st1 : SearchState}
    (h : ∀ q : Pin × Signal, q ∈ st.reached ↔ q ∈ st1.reached) (p : Pin) (s : Signal) :
    pinHas st p s = pinHas st1 p s := by
  refine bool_eq_of_iff ?_
  rw [pinHas_iff, pinHas_iff]
  exact h (p, s)

theorem classify_congr {st st1 : SearchState}
    (h : ∀ q : Pin × Signal, q ∈ st.reached ↔ q ∈ st1.reached) (e : Edge) :
    classify st e = classify st1 e := by
  unfold classify
  rw [pinHot_congr h, pinHot_congr h, pinHas_congr h, pinHas_congr h,
    pinHas_congr h, pinHas_congr h]

theorem classify_isSome_iff {st : SearchState} {e : Edge} :
    (classify st e).isSome ↔
      (pinHot st (e.fromId, e.fromPort) = true ∧ pinHot st (e.toId, e.toPort) = true) := by
  unfold classify
  by_cases h1 : pinHot st (e.fromId, e.fromPort) = true <;>
    by_cases h2 : pinHot st (e.toId, e.toPort) = true <;> simp [h1, h2]

theorem mem_nodeHot_iff {d : Diagram} {st : SearchState} {i : String} :
    i ∈ (deriveResult d st).nodeHot ↔ ∃ p s, ((p, s) : Pin × Signal) ∈ st.reached ∧ p.1 = i := by
  unfold deriveResult
  simp only [List.mem_toFinset, List.mem_map]
  constructor
  · rintro ⟨q, hq, rfl⟩
    exact ⟨q.1, q.2, by simpa using hq, rfl⟩
  · rintro ⟨p, s, hmem, rfl⟩
    exact ⟨(p, s), hmem, rfl⟩

theorem mem_edgeHot_iff {d : Diagram} {st : SearchState} {i : String} :
    i ∈ (deriveResult d st).edgeHot ↔
      ∃ e ∈ d.edges, (classify st e).isSome ∧ e.id = i := by
  unfold deriveResult
  simp only [List.mem_toFinset, List.mem_map, List.mem_filter]
  constructor
  · rintro ⟨e, ⟨he, hc⟩, rfl⟩
    exact ⟨e, he, by simpa using hc, rfl⟩
  · rintro ⟨e, he, hc, rfl⟩
    exact ⟨e, ⟨he, by simpa using hc⟩, rfl⟩

theorem edgeSig_eq_some_iff {d : Diagram} {st : SearchState} {i : String} {s : Signal}
    (hN : NodupEdgeIds d) :
    (deriveResult d st).edgeSig i = some s ↔
      ∃ e ∈ d.edges, e.id = i ∧ classify st e = some s := by
  have hmemL : ∀ q : String × Signal,
      (q ∈ d.edges.filterMap (fun e => (classify st e).map (fun u => (e.id, u))) ↔
        ∃ e ∈ d.edges, e.id = q.1 ∧ classify st e = some q.2) := by
    intro q
    rw [List.mem_filterMap]
    constructor
    · rintro ⟨e, he, hg⟩
      cases hc : classify st e with
      | none => rw [hc] at hg; simp at hg
      | some u =>
        rw [hc] at hg
        simp only [Option.map_some'] at hg
        obtain rfl : (e.id, u) = q := by simpa using hg
        exact ⟨e, he, rfl, hc⟩
    · rintro ⟨e, he, hid, hc⟩
      refine ⟨e, he, ?_⟩
      rw [hc]
      simp only [Option.map_some']
      rw [hid]
  unfold deriveResult
  simp only
  constructor
  · intro h
    cases hf : ((d.edges.filterMap (fun e => (classify st e).map (fun u => (e.id, u)))).reverse.find?
        (fun q => q.1 == i)) with
    | none => rw [hf] at h; simp at h
    | some q =>
      rw [hf] at h
      simp only [Option.map_some', Option.some.injEq] at h
      have hqpred : q.1 = i := by simpa using List.find?_some hf
      have hqmem := List.mem_of_find?_eq_some hf
      rw [List.mem_reverse] at hqmem
      obtain ⟨e, he, hid, hc⟩ := (hmemL q).1 hqmem
      exact ⟨e, he, by rw [hid, hqpred], by rw [hc, h]⟩
  · rintro ⟨e, he, hid, hc⟩
    have hin : ((i, s) : String × Signal) ∈
        d.edges.filterMap (fun e => (classify st e).map (fun u => (e.id, u))) :=
      (hmemL (i, s)).2 ⟨e, he, hid, hc⟩
    have huniq : ∀ q ∈ d.edges.filterMap (fun e => (classify st e).map (fun u => (e.id, u))),
        q.1 = i → q = (i, s) := by
      intro q hq hqi
      obtain ⟨e2, he2, hid2, hc2⟩ := (hmemL q).1 hq
      have heq : e2 = e := by
        refine List.inj_on_of_nodup_map hN he2 he ?_
        rw [hid2, hqi, hid]
      rw [heq, hc] at hc2
      obtain rfl : s = q.2 := by simpa using hc2
      rw [← hqi]
    cases hf : ((d.edges.filterMap (fun e => (classify st e).map (fun u => (e.id, u)))).reverse.find?
        (fun q => q.1 == i)) with
    | none =>
      rw [List.find?_eq_none] at hf
      exact absurd (by simp : ((i, s) : String × Signal).1 == i)
        (hf (i, s) (by rwa [List.mem_reverse]))
    | some q =>
      have hqpred : q.1 = i := by simpa using List.find?_some hf
      have hqmem := List.mem_of_find?_eq_some hf
      rw [List.mem_reverse] at hqmem
      have : q = (i, s) := huniq q hqmem hqpred
      rw [this]
      rfl

/-! ### lookupNode characterizations and diagram-shape congruences -/

theorem lookupNode_eq_some_iff {d : Diagram} (hN : NodupIds d) {i : String} {n : Node} :
    lookupNode d i = some n ↔ n ∈ d.nodes ∧ n.id = i := by
  unfold lookupNode
  constructor
  · intro h
    have hmem := List.mem_of_find?_eq_some h
    have hpred := List.find?_some h
    rw [List.mem_reverse] at hmem
    exact ⟨hmem, by simpa using hpred⟩
  · rintro ⟨hmem, rfl⟩
    cases hf : (d.nodes.reverse.find? (fun m => m.id == n.id)) with
    | none =>
      rw [List.find?_eq_none] at hf
      exact absurd (by simp : (n.id == n.id) = true) (hf n (by simpa using hmem))
    | some m =>
      have hmm := List.mem_of_find?_eq_some hf
      have hpred := List.find?_some hf
      rw [List.mem_reverse] at hmm
      have hmn : m = n := List.inj_on_of_nodup_map hN hmm hmem (by simpa using hpred)
      rw [hmn]

theorem lookupNode_eq_none_iff {d : Diagram} {i : String} :
    lookupNode d i = none ↔ ∀ n ∈ d.nodes, n.id ≠ i := by
  unfold lookupNode
  rw [List.find?_eq_none]
  constructor
  · intro h n hmem
    have := h n (by simpa using hmem)
    simpa using this
  · intro h n hmem
    have := h n (by rwa [List.mem_reverse] at hmem)
    simpa using this

theorem lookupNode_perm {d d1 : Diagram} (hN : NodupIds d)
    (hp : d.nodes.Perm d1.nodes) (i : String) : lookupNode d i = lookupNode d1 i := by
  have hN1 : NodupIds d1 := (hp.map Node.id).nodup_iff.1 hN
  cases h : lookupNode d i with
  | some n =>
    obtain ⟨hmem, hid⟩ := (lookupNode_eq_some_iff hN).1 h
    exact ((lookupNode_eq_some_iff hN1).2 ⟨hp.mem_iff.1 hmem, hid⟩).symm
  | none =>
    rw [lookupNode_eq_none_iff] at h
    refine (lookupNode_eq_none_iff.2 ?_).symm
    intro n hmem
    exact h n (hp.mem_iff.2 hmem)

theorem mem_arcs_perm {d d1 : Diagram} (hn : d.nodes.Perm d1.nodes)
    (he : d.edges.Perm d1.edges) (a : Pin × Pin) : a ∈ arcs d ↔ a ∈ arcs d1 := by
  unfold arcs wireArcs internalArcs
  simp only [List.mem_append, List.mem_flatMap]
  constructor
  · rintro (⟨e, hmem, hx⟩ | ⟨n, hmem, hx⟩)
    · exact Or.inl ⟨e, he.mem_iff.1 hmem, hx⟩
    · exact Or.inr ⟨n, hn.mem_iff.1 hmem, hx⟩
  · rintro (⟨e, hmem, hx⟩ | ⟨n, hmem, hx⟩)
    · exact Or.inl ⟨e, he.mem_iff.2 hmem, hx⟩
    · exact Or.inr ⟨n, hn.mem_iff.2 hmem, hx⟩

theorem isSeed_perm {d d1 : Diagram} (hn : d.nodes.Perm d1.nodes) {p : Pin} {s : Signal} :
    isSeed d p s ↔ isSeed d1 p s := by
  unfold isSeed
  constructor
  · rintro ⟨n, hmem, hx⟩
    exact ⟨n, hn.mem_iff.1 hmem, hx⟩
  · rintro ⟨n, hmem, hx⟩
    exact ⟨n, hn.mem_iff.2 hmem, hx⟩

theorem outSig_congr {d d1 : Diagram}
    (h : ∀ i, (lookupNode d i).map Node.type = (lookupNode d1 i).map Node.type)
    (p : Pin) (s : Signal) (nb : Pin) : outSig d p s nb = outSig d1 p s nb := by
  have e1 := h p.1
  have e2 := h nb.1
  unfold outSig
  rcases ha : lookupNode d p.1 with _ | na <;> rcases hb : lookupNode d1 p.1 with _ | nb1 <;>
    rcases hc : lookupNode d nb.1 with _ | ma <;> rcases hd : lookupNode d1 nb.1 with _ | mb <;>
      rw [ha, hb] at e1 <;> rw [hc, hd] at e2 <;> simp_all

theorem reaches_mono_of {d d1 : Diagram}
    (harc : ∀ a ∈ arcs d, a ∈ arcs d1)
    (hseed : ∀ p s, isSeed d p s → isSeed d1 p s)
    (hout : ∀ p s nb, outSig d p s nb = outSig d1 p s nb) :
    ∀ p s, Reaches d p s → Reaches d1 p s := by
  intro p s hr
  induction hr with
  | seed h => exact Reaches.seed (hseed _ _ h)
  | step hr hf ih =>
    refine Reaches.step ih ⟨harc _ hf.1, ?_⟩
    rw [← hout]
    exact hf.2

theorem reaches_perm {d d1 : Diagram} (hN : NodupIds d)
    (hn : d.nodes.Perm d1.nodes) (he : d.edges.Perm d1.edges) (p : Pin) (s : Signal) :
    Reaches d p s ↔ Reaches d1 p s := by
  have hN1 : NodupIds d1 := (hn.map Node.id).nodup_iff.1 hN
  have hl := lookupNode_perm hN hn
  have hl1 : ∀ i, lookupNode d1 i = lookupNode d i := fun i => (hl i).symm
  constructor
  · exact reaches_mono_of (fun a ha => (mem_arcs_perm hn he a).1 ha)
      (fun p s hs => (isSeed_perm hn).1 hs)
      (outSig_congr (fun i => by rw [hl i])) p s
  · exact reaches_mono_of (fun a ha => (mem_arcs_perm hn he a).2 ha)
      (fun p s hs => (isSeed_perm hn).2 hs)
      (outSig_congr (fun i => by rw [hl1 i])) p s

/-! ### No crash on well-formed references -/

theorem wireArcs_mem {d : Diagram} {p nb : Pin} (h : (p, nb) ∈ wireArcs d) :
    ∃ e ∈ d.edges, (p = (e.fromId, e.fromPort) ∧ nb = (e.toId, e.toPort)) ∨
      (p = (e.toId, e.toPort) ∧ nb = (e.fromId, e.fromPort)) := by
  unfold wireArcs at h
  rw [List.mem_flatMap] at h
  obtain ⟨e, he, hx⟩ := h
  simp only [List.mem_cons, List.not_mem_nil, or_false, Prod.mk.injEq] at hx
  exact ⟨e, he, hx⟩

theorem internalArcs_ids {d : Diagram} {p nb : Pin} (h : (p, nb) ∈ internalArcs d) :
    ∃ n ∈ d.nodes, p.1 = n.id ∧ nb.1 = n.id := by
  unfold internalArcs at h
  rw [List.mem_flatMap] at h
  obtain ⟨n, hn, hx⟩ := h
  refine ⟨n, hn, ?_⟩
  revert hx
  cases n.type with
  | source => intro hx; simp at hx
  | breaker =>
    intro hx
    by_cases hcl : n.closed = some true
    · rw [if_pos hcl] at hx
      simp only [List.mem_cons, List.not_mem_nil, or_false, Prod.mk.injEq] at hx
      rcases hx with ⟨rfl, rfl⟩ | ⟨rfl, rfl⟩ <;> exact ⟨rfl, rfl⟩
    · rw [if_neg hcl] at hx
      simp at hx
  | bus =>
    intro hx
    simp only [List.mem_cons, List.not_mem_nil, or_false, Prod.mk.injEq] at hx
    rcases hx with ⟨rfl, rfl⟩ | ⟨rfl, rfl⟩ <;> exact ⟨rfl, rfl⟩
  | load =>
    intro hx
    simp only [List.mem_cons, List.not_mem_nil, or_false, Prod.mk.injEq] at hx
    rcases hx with ⟨rfl, rfl⟩ | ⟨rfl, rfl⟩ <;> exact ⟨rfl, rfl⟩
  | rectifier =>
    intro hx
    simp only [List.mem_singleton, Prod.mk.injEq] at hx
    obtain ⟨rfl, rfl⟩ := hx
    exact ⟨rfl, rfl⟩
  | inverter =>
    intro hx
    simp only [List.mem_singleton, Prod.mk.injEq] at hx
    obtain ⟨rfl, rfl⟩ := hx
    exact ⟨rfl, rfl⟩

theorem arcs_lookup_isSome {d : Diagram} (hw : WFRefs d) (p nb : Pin)
    (hmem : (p, nb) ∈ arcs d) :
    (lookupNode d p.1).isSome ∧ (lookupNode d nb.1).isSome := by
  unfold arcs at hmem
  rcases List.mem_append.1 hmem with hm | hm
  · obtain ⟨e, he, hx⟩ := wireArcs_mem hm
    obtain ⟨h1, h2⟩ := hw e he
    rcases hx with ⟨rfl, rfl⟩ | ⟨rfl, rfl⟩
    · exact ⟨h1, h2⟩
    · exact ⟨h2, h1⟩
  · obtain ⟨n, hn, h1, h2⟩ := internalArcs_ids hm
    have hl := lookupNode_isSome_of_mem hn
    rw [h1, h2]
    exact ⟨hl, hl⟩

/-- With every conductor endpoint naming an existing device, the
search cannot crash. -/
theorem sim_isSome_of_WFRefs (d : Diagram) (hw : WFRefs d) : (sim d).isSome := by
  have hq : ∀ q ∈ (initState d).queue, (lookupNode d q.1.1).isSome := by
    intro q hmem
    rw [initState_queue] at hmem
    obtain ⟨n, hn, hf⟩ := List.mem_filterMap.1 hmem
    rw [seedFn_fst hf]
    exact lookupNode_isSome_of_mem hn
  have hrun := run_isSome d (fun p nb h => arcs_lookup_isSome hw p nb h)
    (fuelBound d) (initState d) hq
  obtain ⟨st, hst⟩ := Option.isSome_iff_exists.1 hrun
  unfold sim simState
  rw [hst]
  rfl

/-! ### Remaining helper lemmas -/

theorem option_eq_of_some_iff {α : Type _} {o1 o2 : Option α}
    (h : ∀ a, o1 = some a ↔ o2 = some a) : o1 = o2 := by
  cases o1 with
  | none =>
    cases o2 with
    | none => rfl
    | some a => exact (h a).2 rfl
  | some a => exact ((h a).1 rfl).symm

theorem sim_isSome_elim {d : Diagram} (h : (sim d).isSome) :
    ∃ st, simState d = some st ∧ sim d = some (deriveResult d st) := by
  unfold sim at h ⊢
  cases hst : simState d with
  | none => rw [hst] at h; simp at h
  | some st => exact ⟨st, rfl, rfl⟩

theorem simOut_eq {d : Diagram} {st : SearchState} (h : simState d = some st) :
    simOut d = deriveResult d st := by
  unfold simOut sim
  rw [h]
  rfl

theorem seedNode_reached_nodup {st : SearchState} {n : Node} (h : st.reached.Nodup) :
    (seedNode st n).reached.Nodup := by
  cases hs : seedFn n with
  | none => rw [seedNode_of_seedFn_none hs]; exact h
  | some q =>
    rw [seedNode_of_seedFn_some hs]
    refine (h.filter _).append (List.nodup_singleton q) ?_
    intro x hx
    rw [List.mem_filter] at hx
    simp only [List.mem_singleton]
    intro hxq
    have hnot := hx.2
    rw [hxq, seedFn_fst hs] at hnot
    simp at hnot

theorem initState_reached_nodup (d : Diagram) : (initState d).reached.Nodup := by
  unfold initState
  have hgen : ∀ (ns : List Node) (st : SearchState), st.reached.Nodup →
      (ns.foldl seedNode st).reached.Nodup := by
    intro ns
    induction ns with
    | nil => intro st h; exact h
    | cons n ns ih =>
      intro st h
      rw [List.foldl_cons]
      exact ih _ (seedNode_reached_nodup h)
  exact hgen d.nodes _ (by simp)

theorem run_reached_nodup (d : Diagram) :
    ∀ (fuel : Nat) (st st1 : SearchState), st.reached.Nodup →
      run d fuel st = some st1 → st1.reached.Nodup := by
  intro fuel
  induction fuel with
  | zero =>
    intro st st1 h hr
    obtain rfl : st = st1 := by simpa [run] using hr
    exact h
  | succ n ih =>
    intro st st1 h hr
    cases hq : st.queue with
    | nil =>
      rw [run_of_queue_nil d _ hq] at hr
      obtain rfl : st = st1 := by simpa using hr
      exact h
    | cons cur rest =>
      rw [run_succ_cons d n hq] at hr
      cases hp : processNbs d cur (adj d cur.1) { st with queue := rest } with
      | none => rw [hp] at hr; exact absurd hr (by simp)
      | some st2 =>
        rw [hp] at hr
        refine ih st2 st1 ?_ hr
        obtain ⟨l, hrch, _, hnd, hfresh, _, _⟩ := processNbs_spec d cur _ _ _ hp
        simp only at hrch hfresh
        rw [hrch]
        exact h.append hnd (fun x hx hxl => hfresh x hxl hx)

/-! ### Definitions specific to the individual claims: the spec-worded
classification rule, the diagram-extension relation, conductor
endpoint predicates and the concrete example diagrams -/

/-- Modelled from the spec's words (section 4.3) as the claim reads
them: a reached set is purely AC when it contains AC and nothing
else. -/
def pureAC (sigs : List Signal) : Prop :=
  Signal.AC ∈ sigs ∧ ∀ s ∈ sigs, s = Signal.AC

instance (sigs : List Signal) : Decidable (pureAC sigs) := by
  unfold pureAC; infer_instance

/-- Modelled from the spec's words as the claim reads them: DC if
either endpoint's reached set contains DC and it is not the case that
both endpoints' reached sets are purely AC; otherwise AC. -/
def claimClassify (sa sb : List Signal) : Signal :=
  if (Signal.DC ∈ sa ∨ Signal.DC ∈ sb) ∧ ¬(pureAC sa ∧ pureAC sb)
  then Signal.DC else Signal.AC

/-- One conductor joins the two given pins, in either orientation. -/
def joins (e : Edge) (p q : Pin) : Prop :=
  ((e.fromId, e.fromPort) = p ∧ (e.toId, e.toPort) = q) ∨
  ((e.fromId, e.fromPort) = q ∧ (e.toId, e.toPort) = p)

/-- The one-step diagram extensions of the monotonicity claim: add one
conductor, or flip one breaker's closed attribute from false to
true. -/
def Extends (d d1 : Diagram) : Prop :=
  (d1.nodes = d.nodes ∧ ∃ e, d1.edges = d.edges ++ [e]) ∨
  (d1.edges = d.edges ∧ ∃ l1 n l2, n.type = NodeType.breaker ∧ n.closed = some false ∧
    d.nodes = l1 ++ n :: l2 ∧
    d1.nodes = l1 ++ { n with closed := some true } :: l2)

/-- A diagram whose only conductor's far endpoint names a nonexistent
device id, reachable from the seeded source. -/
def ghostDiag : Diagram :=
  { nodes := [{ id := "S", type := NodeType.source, sourceSignal := some Signal.AC }],
    edges := [{ id := "E1", fromId := "S", fromPort := 0, toId := "GHOST", toPort := 0 }] }

/-- An AC and a DC source both wired into an inverter's DC-side pin,
plus a conductor between the inverter's own two pins: pin (INV,0)
reaches {AC,DC} while pin (INV,1) reaches {AC} only. -/
def cexC2 : Diagram :=
  { nodes := [
      { id := "SA", type := NodeType.source, sourceSignal := some Signal.AC },
      { id := "SD", type := NodeType.source, sourceSignal := some Signal.DC },
      { id := "INV", type := NodeType.inverter } ],
    edges := [
      { id := "E1", fromId := "SA", fromPort := 0, toId := "INV", toPort := 0 },
      { id := "E2", fromId := "SD", fromPort := 0, toId := "INV", toPort := 0 },
      { id := "E3", fromId := "INV", fromPort := 1, toId := "INV", toPort := 0 } ] }

/-- Source feeding a load through a breaker, parameterized by the
breaker's closed attribute. -/
def gateDiag (cl : Bool) : Diagram :=
  { nodes := [
      { id := "S", type := NodeType.source, sourceSignal := some Signal.AC },
      { id := "B", type := NodeType.breaker, closed := some cl },
      { id := "L", type := NodeType.load } ],
    edges := [
      { id := "E1", fromId := "S", fromPort := 0, toId := "B", toPort := 0 },
      { id := "E2", fromId := "B", fromPort := 1, toId := "L", toPort := 0 } ] }

/-- A source feeding a two-bus closed loop: the cyclic-topology
example. -/
def cycDiag : Diagram :=
  { nodes := [
      { id := "S", type := NodeType.source, sourceSignal := some Signal.AC },
      { id := "B1", type := NodeType.bus },
      { id := "B2", type := NodeType.bus } ],
    edges := [
      { id := "E1", fromId := "S", fromPort := 0, toId := "B1", toPort := 0 },
      { id := "E2", fromId := "B1", fromPort := 1, toId := "B2", toPort := 0 },
      { id := "E3", fromId := "B2", fromPort := 1, toId := "B1", toPort := 0 } ] }

/-- A kindless source wired to a load: nothing should be seeded or
energized. -/
def kindlessDiag : Diagram :=
  { nodes := [
      { id := "S", type := NodeType.source },
      { id := "L", type := NodeType.load } ],
    edges := [{ id := "E1", fromId := "S", fromPort := 0, toId := "L", toPort := 0 }] }

/-! ### Claim theorems -/

/-- C1: the claim says the engine completes without crashing on a
conductor whose endpoint references a nonexistent device, the malformed
conductor being rejected or excluded.  On the code this fails: in
ghostDiag the single conductor's far endpoint names the nonexistent id
GHOST, the neighbor loop reads .id off the unguarded nodesById lookup,
and the computation crashes (the modelled none outcome) instead of
excluding the conductor. -/
theorem C1_dangling_endpoint_crashes :
    lookupNode ghostDiag "GHOST" = none ∧ sim ghostDiag = none :=
  ⟨rfl, rfl⟩

theorem sourceSignal_none_seedFn {n : Node} (h : n.sourceSignal = none) : seedFn n = none := by
  unfold seedFn
  cases ht : n.type <;> rw [h]

/-- C10: a source without a declared signal kind contributes no seed
(seedNode is the identity on it), and a diagram whose sources all lack
a kind has the empty initial state, hence no energized device or
conductor and no classified conductor at all. -/
theorem C10_kindless_source_contributes_nothing (d : Diagram)
    (h : ∀ n ∈ d.nodes, n.type = NodeType.source → n.sourceSignal = none) :
    (∀ (st : SearchState) (n : Node), n.sourceSignal = none → seedNode st n = st) ∧
    initState d = { reached := [], queue := [] } ∧
    sim d = some { nodeHot := ∅, edgeHot := ∅, edgeSig := fun _ => none } := by
  have hskip : ∀ (st : SearchState) (n : Node), n.sourceSignal = none → seedNode st n = st :=
    fun st n hn => seedNode_of_seedFn_none (sourceSignal_none_seedFn hn)
  have hseedFn : ∀ n ∈ d.nodes, seedFn n = none := by
    intro n hn
    unfold seedFn
    cases ht : n.type <;> first
      | rw [h n hn ht]
      | (cases hsv : n.sourceSignal <;> rfl)
  have hinit : initState d = { reached := [], queue := [] } := by
    unfold initState
    have hgen : ∀ (ns : List Node), (∀ n ∈ ns, seedFn n = none) →
        ∀ st : SearchState, ns.foldl seedNode st = st := by
      intro ns
      induction ns with
      | nil => intro _ st; rfl
      | cons n ns ih =>
        intro hall st
        rw [List.foldl_cons, seedNode_of_seedFn_none (hall n (List.mem_cons_self _ _))]
        exact ih (fun m hm => hall m (List.mem_cons_of_mem _ hm)) st
    exact hgen d.nodes hseedFn _
  have hrun : simState d = some { reached := [], queue := [] } := by
    unfold simState
    rw [hinit]
    exact run_of_queue_nil d _ rfl
  have hclassify : ∀ e, classify { reached := [], queue := [] } e = none := fun e => rfl
  have hderive : deriveResult d { reached := [], queue := [] } =
      { nodeHot := ∅, edgeHot := ∅, edgeSig := fun _ => none } := by
    unfold deriveResult
    have hfil : d.edges.filter
        (fun e => (classify { reached := [], queue := [] } e).isSome) = [] := by
      rw [List.filter_eq_nil_iff]
      intro e _
      rw [hclassify e]
      simp
    have hfm : d.edges.filterMap
        (fun e => (classify { reached := [], queue := [] } e).map (fun s => (e.id, s))) = [] := by
      rw [List.filterMap_eq_nil_iff]
      intro e _
      rw [hclassify e]
      rfl
    rw [hfil, hfm]
    rfl
  refine ⟨hskip, hinit, ?_⟩
  unfold sim
  rw [hrun, Option.map_some', hderive]

/-- C10 witness: the kindless source diagram concretely seeds nothing
and energizes nothing. -/
theorem C10_kindless_source_witness :
    initState kindlessDiag = { reached := [], queue := [] } ∧
    sim kindlessDiag = some { nodeHot := ∅, edgeHot := ∅, edgeSig := fun _ => none } :=
  ⟨(C10_kindless_source_contributes_nothing kindlessDiag (by decide)).2.1,
   (C10_kindless_source_contributes_nothing kindlessDiag (by decide)).2.2⟩

/-- C9: toggleBreaker maps every node pointwise; a node with the given
id of type breaker changes in its closed field only (to the negation of
its JS-truthy closed value), every other node is untouched, edges,
version and name are untouched, and when no node matches the diagram is
unchanged. -/
theorem C9_toggleBreaker_frame (d : Diagram) (i : String) :
    (toggleBreaker d i).version = d.version ∧
    (toggleBreaker d i).name = d.name ∧
    (toggleBreaker d i).edges = d.edges ∧
    (toggleBreaker d i).nodes = d.nodes.map (fun n =>
      if n.id = i ∧ n.type = NodeType.breaker then
        { n with closed := some (!(n.closed.getD false)) } else n) ∧
    (∀ n : Node, ¬(n.id = i ∧ n.type = NodeType.breaker) →
      (if n.id = i ∧ n.type = NodeType.breaker then
        { n with closed := some (!(n.closed.getD false)) } else n) = n) ∧
    (∀ n : Node,
      ((if n.id = i ∧ n.type = NodeType.breaker then
        { n with closed := some (!(n.closed.getD false)) } else n).id = n.id ∧
       (if n.id = i ∧ n.type = NodeType.breaker then
        { n with closed := some (!(n.closed.getD false)) } else n).type = n.type ∧
       (if n.id = i ∧ n.type = NodeType.breaker then
        { n with closed := some (!(n.closed.getD false)) } else n).x = n.x ∧
       (if n.id = i ∧ n.type = NodeType.breaker then
        { n with closed := some (!(n.closed.getD false)) } else n).y = n.y ∧
       (if n.id = i ∧ n.type = NodeType.breaker then
        { n with closed := some (!(n.closed.getD false)) } else n).label = n.label ∧
       (if n.id = i ∧ n.type = NodeType.breaker then
        { n with closed := some (!(n.closed.getD false)) } else n).sourceSignal
          = n.sourceSignal)) ∧
    ((∀ n ∈ d.nodes, ¬(n.id = i ∧ n.type = NodeType.breaker)) → toggleBreaker d i = d) := by
  refine ⟨rfl, rfl, rfl, rfl, ?_, ?_, ?_⟩
  · intro n h
    rw [if_neg h]
  · intro n
    by_cases h : n.id = i ∧ n.type = NodeType.breaker
    · rw [if_pos h]
      exact ⟨rfl, rfl, rfl, rfl, rfl, rfl⟩
    · rw [if_neg h]
      exact ⟨rfl, rfl, rfl, rfl, rfl, rfl⟩
  · intro hall
    unfold toggleBreaker
    have hcong : ∀ n ∈ d.nodes, (if n.id = i ∧ n.type = NodeType.breaker then
        { n with closed := some (!(n.closed.getD false)) } else n) = id n :=
      fun n hn => if_neg (hall n hn)
    have hmap : d.nodes.map (fun n =>
        if n.id = i ∧ n.type = NodeType.breaker then
          { n with closed := some (!(n.closed.getD false)) } else n) = d.nodes := by
      rw [List.map_congr_left hcong, List.map_id]
    rw [hmap]

/-- C8: the Load handler rejects a payload whose device list or
conductor list is missing, leaving the active diagram untouched, and
installs any payload that has both lists. -/
theorem C8_load_shape_check (current : Diagram) (raw : RawDiagram) :
    ((raw.nodes = none ∨ raw.edges = none) →
      parseLoad raw = Except.error "Bad diagram JSON" ∧ loadAction current raw = current) ∧
    (∀ ns es, raw.nodes = some ns → raw.edges = some es →
      parseLoad raw = Except.ok { version := raw.version.getD 1, name := raw.name,
                                  nodes := ns, edges := es } ∧
      loadAction current raw = { version := raw.version.getD 1, name := raw.name,
                                 nodes := ns, edges := es }) := by
  constructor
  · intro h
    have herr : parseLoad raw = Except.error "Bad diagram JSON" := by
      unfold parseLoad
      rcases h with h | h
      · rw [h]
      · cases hn : raw.nodes with
        | none => rfl
        | some ns => rw [h]
    refine ⟨herr, ?_⟩
    unfold loadAction
    rw [herr]
  · intro ns es h1 h2
    have hok : parseLoad raw = Except.ok { version := raw.version.getD 1, name := raw.name,
                                           nodes := ns, edges := es } := by
      unfold parseLoad
      rw [h1, h2]
    refine ⟨hok, ?_⟩
    unfold loadAction
    rw [hok]

/-- C7: an internal converter step (both pins on the same node) of a
rectifier fires only from port 0 to port 1, only on an arriving AC,
and records exactly DC; the inverter symmetrically fires only 0 to 1,
only on DC, and records exactly AC.  In particular no signal crosses
from the DC-role to the AC-role terminal and no AC is ever recorded at
a rectifier's DC-role terminal by an internal step. -/
theorem C7_conversion_directionality (d : Diagram) (p nb : Pin) (s t : Signal)
    (hsame : nb.1 = p.1) :
    ((lookupNode d p.1).map Node.type = some NodeType.rectifier →
      outSig d p s nb = some (some t) →
      p.2 = 0 ∧ nb.2 = 1 ∧ s = Signal.AC ∧ t = Signal.DC) ∧
    ((lookupNode d p.1).map Node.type = some NodeType.inverter →
      outSig d p s nb = some (some t) →
      p.2 = 0 ∧ nb.2 = 1 ∧ s = Signal.DC ∧ t = Signal.AC) := by
  constructor
  · intro hty hout
    cases hl : lookupNode d p.1 with
    | none => rw [hl] at hty; simp at hty
    | some node =>
      rw [hl] at hty
      have htype : node.type = NodeType.rectifier := by simpa using hty
      unfold outSig at hout
      rw [hl] at hout
      cases hl2 : lookupNode d nb.1 with
      | none => rw [hl2] at hout; simp at hout
      | some m =>
        rw [hl2] at hout
        simp only at hout
        rw [if_pos hsame, htype] at hout
        by_cases hcond : p.2 = 0 ∧ nb.2 = 1 ∧ s = Signal.AC
        · rw [if_pos hcond] at hout
          obtain rfl : Signal.DC = t := by simpa using hout
          exact ⟨hcond.1, hcond.2.1, hcond.2.2, rfl⟩
        · rw [if_neg hcond] at hout
          simp at hout
  · intro hty hout
    cases hl : lookupNode d p.1 with
    | none => rw [hl] at hty; simp at hty
    | some node =>
      rw [hl] at hty
      have htype : node.type = NodeType.inverter := by simpa using hty
      unfold outSig at hout
      rw [hl] at hout
      cases hl2 : lookupNode d nb.1 with
      | none => rw [hl2] at hout; simp at hout
      | some m =>
        rw [hl2] at hout
        simp only at hout
        rw [if_pos hsame, htype] at hout
        by_cases hcond : p.2 = 0 ∧ nb.2 = 1 ∧ s = Signal.DC
        · rw [if_pos hcond] at hout
          obtain rfl : Signal.AC = t := by simpa using hout
          exact ⟨hcond.1, hcond.2.1, hcond.2.2, rfl⟩
        · rw [if_neg hcond] at hout
          simp at hout

/-- A bare rectifier and inverter, for exercising the conversion
steps. -/
def rectInvDiag : Diagram :=
  { nodes := [
      { id := "R", type := NodeType.rectifier },
      { id := "V", type := NodeType.inverter } ],
    edges := [] }

/-- C7 witness: the directionality facts instantiated on concrete
firing internal steps of a rectifier and of an inverter. -/
theorem C7_conversion_witness :
    ((("R", 0) : Pin).2 = 0 ∧ (("R", 1) : Pin).2 = 1 ∧
      Signal.AC = Signal.AC ∧ Signal.DC = Signal.DC) ∧
    ((("V", 0) : Pin).2 = 0 ∧ (("V", 1) : Pin).2 = 1 ∧
      Signal.DC = Signal.DC ∧ Signal.AC = Signal.AC) :=
  ⟨(C7_conversion_directionality rectInvDiag ("R", 0) ("R", 1) Signal.AC Signal.DC rfl).1
      rfl rfl,
   (C7_conversion_directionality rectInvDiag ("V", 0) ("V", 1) Signal.DC Signal.AC rfl).2
      rfl rfl⟩

/-- C5: with the stated fuel the search is at its fixed point (more
fuel changes nothing, so the while loop has terminated), and if it did
not crash its queue is drained and its reached list records each
(pin, kind) state at most once; this holds for every diagram, cyclic
topologies included. -/
theorem C5_termination_on_cycles (d : Diagram) :
    (∀ extra, run d (fuelBound d + extra) (initState d) = simState d) ∧
    (simState d).elim True (fun st => st.queue = [] ∧ st.reached.Nodup) := by
  refine ⟨run_fuelBound_stable d, ?_⟩
  cases hst : simState d with
  | none => trivial
  | some st =>
    exact ⟨simState_queue_nil hst,
      run_reached_nodup d (fuelBound d) (initState d) st (initState_reached_nodup d) hst⟩

theorem classify_eq_of_hot {st : SearchState} {e : Edge}
    (hA : pinHot st (e.fromId, e.fromPort) = true)
    (hB : pinHot st (e.toId, e.toPort) = true) :
    classify st e = some (if (((e.fromId, e.fromPort), Signal.DC) ∈ st.reached ∨
        ((e.toId, e.toPort), Signal.DC) ∈ st.reached) ∧
        ¬(((e.fromId, e.fromPort), Signal.AC) ∈ st.reached ∧
          ((e.toId, e.toPort), Signal.AC) ∈ st.reached)
      then Signal.DC else Signal.AC) := by
  unfold classify
  rw [if_pos (by rw [hA, hB]; rfl : (pinHot st (e.fromId, e.fromPort) &&
    pinHot st (e.toId, e.toPort)) = true)]
  congr 1
  by_cases h1 : ((e.fromId, e.fromPort), Signal.DC) ∈ st.reached <;>
    by_cases h2 : ((e.toId, e.toPort), Signal.DC) ∈ st.reached <;>
    by_cases h3 : ((e.fromId, e.fromPort), Signal.AC) ∈ st.reached <;>
    by_cases h4 : ((e.toId, e.toPort), Signal.AC) ∈ st.reached <;>
    simp [pinHas, h1, h2, h3, h4]

/-- C2 counterexample: in cexC2 the conductor E3 is energized, its
endpoint (INV,1) reaches exactly {AC} and its endpoint (INV,0) reaches
{AC,DC}.  The claim's rule (DC whenever either side contains DC and
the two sides are not both purely AC) classifies it DC, but the engine
classifies it AC: the code only requires both sides to contain AC, not
to be purely AC. -/
theorem C2_purely_AC_counterexample :
    pinHot (simStateD cexC2) ("INV", 1) = true ∧
    pinHot (simStateD cexC2) ("INV", 0) = true ∧
    reachedSigs (simStateD cexC2) ("INV", 1) = [Signal.AC] ∧
    reachedSigs (simStateD cexC2) ("INV", 0) = [Signal.AC, Signal.DC] ∧
    claimClassify (reachedSigs (simStateD cexC2) ("INV", 1))
        (reachedSigs (simStateD cexC2) ("INV", 0)) = Signal.DC ∧
    (sim cexC2).map (fun r => r.edgeSig "E3") = some (some Signal.AC) := by
  refine ⟨by decide, by decide, by decide, by decide, by decide, rfl⟩

/-- C2 amended: for an energized conductor the classification is DC iff
either endpoint's reached set contains DC and it is not the case that
both endpoints' reached sets contain AC; otherwise AC. -/
theorem C2_amended_classification (d : Diagram) (st : SearchState) (e : Edge)
    (hE : NodupEdgeIds d) (hst : simState d = some st) (he : e ∈ d.edges)
    (hA : pinHot st (e.fromId, e.fromPort) = true)
    (hB : pinHot st (e.toId, e.toPort) = true) :
    (sim d).map (fun r => r.edgeSig e.id) =
      some (some (if (((e.fromId, e.fromPort), Signal.DC) ∈ st.reached ∨
          ((e.toId, e.toPort), Signal.DC) ∈ st.reached) ∧
          ¬(((e.fromId, e.fromPort), Signal.AC) ∈ st.reached ∧
            ((e.toId, e.toPort), Signal.AC) ∈ st.reached)
        then Signal.DC else Signal.AC)) := by
  unfold sim
  rw [hst, Option.map_some', Option.map_some']
  refine congrArg some ?_
  exact (edgeSig_eq_some_iff hE).2 ⟨e, he, rfl, classify_eq_of_hot hA hB⟩

/-- C2 amended witness: the amended classification instantiated on the
energized conductor E1 of the closed-breaker gate diagram. -/
theorem C2_amended_witness :
    (sim (gateDiag true)).map (fun r => r.edgeSig "E1") =
      some (some (if (((("S", 0) : Pin), Signal.DC) ∈ (simStateD (gateDiag true)).reached ∨
          ((("B", 0) : Pin), Signal.DC) ∈ (simStateD (gateDiag true)).reached) ∧
          ¬(((("S", 0) : Pin), Signal.AC) ∈ (simStateD (gateDiag true)).reached ∧
            ((("B", 0) : Pin), Signal.AC) ∈ (simStateD (gateDiag true)).reached)
        then Signal.DC else Signal.AC)) :=
  C2_amended_classification (gateDiag true) (simStateD (gateDiag true))
    { id := "E1", fromId := "S", fromPort := 0, toId := "B", toPort := 0 }
    (by decide) rfl (by decide) (by decide) (by decide)

/-- The closed-breaker gate diagram with its node and conductor lists
permuted, for the determinism claim. -/
def gatePermDiag : Diagram :=
  { nodes := [
      { id := "B", type := NodeType.breaker, closed := some true },
      { id := "S", type := NodeType.source, sourceSignal := some Signal.AC },
      { id := "L", type := NodeType.load } ],
    edges := [
      { id := "E2", fromId := "B", fromPort := 1, toId := "L", toPort := 0 },
      { id := "E1", fromId := "S", fromPort := 0, toId := "B", toPort := 0 } ] }

/-- C4: the engine output is a pure function of the diagram content:
recomputing on the same diagram yields the same value, and permuting
the device list and the conductor list of a well-formed diagram leaves
the derived state (energized node ids, energized conductor ids, and the
conductor signal map) identical. -/
theorem C4_determinism (d d1 : Diagram)
    (hN : NodupIds d) (hE : NodupEdgeIds d)
    (hn : d.nodes.Perm d1.nodes) (he : d.edges.Perm d1.edges)
    (h1 : (sim d).isSome) (h2 : (sim d1).isSome) :
    sim d = sim d ∧ sim d = sim d1 := by
  refine ⟨rfl, ?_⟩
  obtain ⟨st, hst, hsim⟩ := sim_isSome_elim h1
  obtain ⟨st1, hst1, hsim1⟩ := sim_isSome_elim h2
  have hN1 : NodupIds d1 := (hn.map Node.id).nodup_iff.1 hN
  have hE1 : NodupEdgeIds d1 := (he.map Edge.id).nodup_iff.1 hE
  have hmem : ∀ q : Pin × Signal, q ∈ st.reached ↔ q ∈ st1.reached := by
    intro q
    have ha := simState_reached_iff hN hst q.1 q.2
    have hb := simState_reached_iff hN1 hst1 q.1 q.2
    have hp := reaches_perm hN hn he q.1 q.2
    exact ha.trans (hp.trans hb.symm)
  have hhot : (deriveResult d st).nodeHot = (deriveResult d1 st1).nodeHot := by
    ext i
    rw [mem_nodeHot_iff, mem_nodeHot_iff]
    constructor
    · rintro ⟨p, s, hmemp, hp⟩
      exact ⟨p, s, (hmem (p, s)).1 hmemp, hp⟩
    · rintro ⟨p, s, hmemp, hp⟩
      exact ⟨p, s, (hmem (p, s)).2 hmemp, hp⟩
  have hedge : (deriveResult d st).edgeHot = (deriveResult d1 st1).edgeHot := by
    ext i
    rw [mem_edgeHot_iff, mem_edgeHot_iff]
    constructor
    · rintro ⟨e, hemem, hsome, hid⟩
      refine ⟨e, he.mem_iff.1 hemem, ?_, hid⟩
      rwa [← classify_congr hmem e]
    · rintro ⟨e, hemem, hsome, hid⟩
      refine ⟨e, he.mem_iff.2 hemem, ?_, hid⟩
      rwa [classify_congr hmem e]
  have hsig : (deriveResult d st).edgeSig = (deriveResult d1 st1).edgeSig := by
    funext i
    refine option_eq_of_some_iff ?_
    intro s
    rw [edgeSig_eq_some_iff hE, edgeSig_eq_some_iff hE1]
    constructor
    · rintro ⟨e, hemem, hid, hc⟩
      exact ⟨e, he.mem_iff.1 hemem, hid, by rw [← classify_congr hmem e]; exact hc⟩
    · rintro ⟨e, hemem, hid, hc⟩
      exact ⟨e, he.mem_iff.2 hemem, hid, by rw [classify_congr hmem e]; exact hc⟩
  rw [hsim, hsim1]
  refine congrArg some ?_
  cases hd : deriveResult d st with
  | mk a b c =>
    cases hd1 : deriveResult d1 st1 with
    | mk a1 b1 c1 =>
      rw [hd, hd1] at hhot hedge hsig
      simp only at hhot hedge hsig
      rw [hhot, hedge, hsig]

/-- C4 witness: the engine output on the gate diagram is unchanged by a
permutation of its node and conductor lists. -/
theorem C4_determinism_witness :
    sim (gateDiag true) = sim (gateDiag true) ∧ sim (gateDiag true) = sim gatePermDiag :=
  C4_determinism (gateDiag true) gatePermDiag (by decide) (by decide)
    (by decide) (by decide) rfl rfl

theorem extends_facts {d d1 : Diagram} (hN : NodupIds d) (hx : Extends d d1) :
    NodupIds d1 ∧ (∀ e ∈ d.edges, e ∈ d1.edges) ∧
    (∀ a ∈ arcs d, a ∈ arcs d1) ∧ (∀ p s, isSeed d p s → isSeed d1 p s) ∧
    (∀ p s nb, outSig d p s nb = outSig d1 p s nb) := by
  rcases hx with ⟨hnodes, e0, hedges⟩ | ⟨hedges, l1, n0, l2, hty, hcl, hnd, hnd1⟩
  · have hN1 : NodupIds d1 := by unfold NodupIds at hN ⊢; rw [hnodes]; exact hN
    have hlook : ∀ i, lookupNode d i = lookupNode d1 i := by
      intro i
      unfold lookupNode
      rw [hnodes]
    refine ⟨hN1, ?_, ?_, ?_, ?_⟩
    · intro e hmem
      rw [hedges]
      exact List.mem_append_left _ hmem
    · intro a ha
      unfold arcs at ha ⊢
      rcases List.mem_append.1 ha with hm | hm
      · refine List.mem_append_left _ ?_
        unfold wireArcs at hm ⊢
        rw [hedges, List.flatMap_append]
        exact List.mem_append_left _ hm
      · refine List.mem_append_right _ ?_
        unfold internalArcs at hm ⊢
        rw [hnodes]
        exact hm
    · intro p s hs
      unfold isSeed at hs ⊢
      rw [hnodes]
      exact hs
    · intro p s nb
      exact outSig_congr (fun i => by rw [hlook i]) p s nb
  · have hids : d1.nodes.map Node.id = d.nodes.map Node.id := by
      rw [hnd, hnd1]
      simp
    have hN1 : NodupIds d1 := by unfold NodupIds at hN ⊢; rw [hids]; exact hN
    have hn0mem : n0 ∈ d.nodes := by
      rw [hnd]
      exact List.mem_append_right _ (List.mem_cons_self _ _)
    have htypes : ∀ i, (lookupNode d i).map Node.type = (lookupNode d1 i).map Node.type := by
      intro i
      cases hli : lookupNode d i with
      | none =>
        rw [lookupNode_eq_none_iff] at hli
        have hres : lookupNode d1 i = none := by
          rw [lookupNode_eq_none_iff]
          intro m hm
          rw [hnd1] at hm
          rcases List.mem_append.1 hm with hm | hm
          · exact hli m (by rw [hnd]; exact List.mem_append_left _ hm)
          · rcases List.mem_cons.1 hm with rfl | hm
            · have h0 := hli n0 hn0mem
              simpa using h0
            · exact hli m
                (by rw [hnd]; exact List.mem_append_right _ (List.mem_cons_of_mem _ hm))
        rw [hres]
      | some m =>
        obtain ⟨hmem, hid⟩ := (lookupNode_eq_some_iff hN).1 hli
        rw [hnd] at hmem
        rcases List.mem_append.1 hmem with hm | hm
        · have hres : lookupNode d1 i = some m := (lookupNode_eq_some_iff hN1).2
            ⟨by rw [hnd1]; exact List.mem_append_left _ hm, hid⟩
          rw [hres]
        · rcases List.mem_cons.1 hm with rfl | hm
          · have hres : lookupNode d1 i = some { m with closed := some true } :=
              (lookupNode_eq_some_iff hN1).2
                ⟨by rw [hnd1]; exact List.mem_append_right _ (List.mem_cons_self _ _),
                 by simpa using hid⟩
            rw [hres]
            rfl
          · have hres : lookupNode d1 i = some m := (lookupNode_eq_some_iff hN1).2
              ⟨by rw [hnd1]; exact List.mem_append_right _ (List.mem_cons_of_mem _ hm), hid⟩
            rw [hres]
    refine ⟨hN1, ?_, ?_, ?_, ?_⟩
    · intro e hmem
      rw [hedges]
      exact hmem
    · intro a ha
      unfold arcs at ha ⊢
      rcases List.mem_append.1 ha with hm | hm
      · refine List.mem_append_left _ ?_
        unfold wireArcs at hm ⊢
        rw [hedges]
        exact hm
      · refine List.mem_append_right _ ?_
        unfold internalArcs at hm ⊢
        rw [hnd, List.flatMap_append, List.flatMap_cons] at hm
        rw [hnd1, List.flatMap_append, List.flatMap_cons]
        rcases List.mem_append.1 hm with hm2 | hm2
        · exact List.mem_append_left _ hm2
        · refine List.mem_append_right _ ?_
          rcases List.mem_append.1 hm2 with hm3 | hm3
          · rw [hty] at hm3
            rw [if_neg (by rw [hcl]; simp)] at hm3
            simp at hm3
          · exact List.mem_append_right _ hm3
    · intro p s hs
      obtain ⟨m, hmem, hmty, hmsig, hp⟩ := hs
      rw [hnd] at hmem
      rcases List.mem_append.1 hmem with hm | hm
      · exact ⟨m, by rw [hnd1]; exact List.mem_append_left _ hm, hmty, hmsig, hp⟩
      · rcases List.mem_cons.1 hm with rfl | hm
        · rw [hty] at hmty
          exact absurd hmty (by simp)
        · exact ⟨m, by rw [hnd1]; exact List.mem_append_right _ (List.mem_cons_of_mem _ hm),
            hmty, hmsig, hp⟩
    · exact fun p s nb => outSig_congr htypes p s nb

/-- C3: adding one conductor, or closing one breaker, never removes an
energized device id or an energized conductor id from the derived
state, for an otherwise-unchanged well-formed diagram on which the
engine completes. -/
theorem C3_monotonicity (d d1 : Diagram) (hN : NodupIds d) (hx : Extends d d1)
    (h1 : (sim d).isSome) (h2 : (sim d1).isSome) :
    (simOut d).nodeHot ⊆ (simOut d1).nodeHot ∧ (simOut d).edgeHot ⊆ (simOut d1).edgeHot := by
  obtain ⟨hN1, hedge, harc, hseed, hout⟩ := extends_facts hN hx
  obtain ⟨st, hst, hsim⟩ := sim_isSome_elim h1
  obtain ⟨st1, hst1, hsim1⟩ := sim_isSome_elim h2
  have hR : ∀ p s, Reaches d p s → Reaches d1 p s := reaches_mono_of harc hseed hout
  have hmono : ∀ q : Pin × Signal, q ∈ st.reached → q ∈ st1.reached := by
    intro q hq
    have hqa : Reaches d q.1 q.2 := (simState_reached_iff hN hst q.1 q.2).1 hq
    exact (simState_reached_iff hN1 hst1 q.1 q.2).2 (hR q.1 q.2 hqa)
  rw [simOut_eq hst, simOut_eq hst1]
  constructor
  · rw [Finset.subset_iff]
    intro i hi
    rw [mem_nodeHot_iff] at hi ⊢
    obtain ⟨p, s, hmemp, hp⟩ := hi
    exact ⟨p, s, hmono (p, s) hmemp, hp⟩
  · rw [Finset.subset_iff]
    intro i hi
    rw [mem_edgeHot_iff] at hi ⊢
    obtain ⟨e, hemem, hsome, hid⟩ := hi
    refine ⟨e, hedge e hemem, ?_, hid⟩
    rw [classify_isSome_iff] at hsome ⊢
    obtain ⟨ha, hb⟩ := hsome
    constructor
    · rw [pinHot_iff] at ha ⊢
      obtain ⟨s, hmem⟩ := ha
      exact ⟨s, hmono _ hmem⟩
    · rw [pinHot_iff] at hb ⊢
      obtain ⟨s, hmem⟩ := hb
      exact ⟨s, hmono _ hmem⟩

/-- C3 witness: closing the gate diagram's breaker only grows the
energized sets. -/
theorem C3_monotonicity_witness :
    (simOut (gateDiag false)).nodeHot ⊆ (simOut (gateDiag true)).nodeHot ∧
    (simOut (gateDiag false)).edgeHot ⊆ (simOut (gateDiag true)).edgeHot :=
  C3_monotonicity (gateDiag false) (gateDiag true) (by decide)
    (Or.inr ⟨rfl, [{ id := "S", type := NodeType.source, sourceSignal := some Signal.AC }],
      { id := "B", type := NodeType.breaker, closed := some false },
      [{ id := "L", type := NodeType.load }], rfl, rfl, rfl, rfl⟩) rfl rfl

theorem wire_arcs_of_joins {d : Diagram} {e : Edge} {p q : Pin}
    (he : e ∈ d.edges) (hj : joins e p q) : (p, q) ∈ arcs d ∧ (q, p) ∈ arcs d := by
  have h : ∀ a b : Pin, joins e a b → (a, b) ∈ arcs d := by
    intro a b hj2
    unfold arcs
    refine List.mem_append_left _ ?_
    unfold wireArcs
    rw [List.mem_flatMap]
    refine ⟨e, he, ?_⟩
    rcases hj2 with ⟨h1, h2⟩ | ⟨h1, h2⟩
    · rw [← h1, ← h2]
      simp
    · rw [← h1, ← h2]
      simp
  have hj3 : joins e q p := by
    rcases hj with ⟨h1, h2⟩ | ⟨h1, h2⟩
    · exact Or.inr ⟨h1, h2⟩
    · exact Or.inl ⟨h1, h2⟩
  exact ⟨h p q hj, h q p hj3⟩

theorem breaker_internal_arcs {d : Diagram} {b : Node} (hmem : b ∈ d.nodes)
    (hty : b.type = NodeType.breaker) (hcl : b.closed = some true) :
    ((b.id, 0), (b.id, 1)) ∈ arcs d ∧ ((b.id, 1), (b.id, 0)) ∈ arcs d := by
  have h : ∀ x ∈ [(((b.id, 0) : Pin), ((b.id, 1) : Pin)), ((b.id, 1), (b.id, 0))],
      x ∈ arcs d := by
    intro x hx
    unfold arcs
    refine List.mem_append_right _ ?_
    unfold internalArcs
    rw [List.mem_flatMap]
    refine ⟨b, hmem, ?_⟩
    simp only [hty]
    rw [if_pos hcl]
    exact hx
  exact ⟨h _ (by simp), h _ (by simp)⟩

theorem joins_arc_cases {e : Edge} {a b p q : Pin} (hj : joins e a b)
    (h : (p = (e.fromId, e.fromPort) ∧ q = (e.toId, e.toPort)) ∨
      (p = (e.toId, e.toPort) ∧ q = (e.fromId, e.fromPort))) :
    (p = a ∧ q = b) ∨ (p = b ∧ q = a) := by
  rcases hj with ⟨h1, h2⟩ | ⟨h1, h2⟩ <;> rcases h with ⟨rfl, rfl⟩ | ⟨rfl, rfl⟩
  · exact Or.inl ⟨h1, h2⟩
  · exact Or.inr ⟨h2, h1⟩
  · exact Or.inr ⟨h1, h2⟩
  · exact Or.inl ⟨h2, h1⟩

theorem internalArcs_cases {d : Diagram} {p q : Pin} (h : (p, q) ∈ internalArcs d) :
    ∃ n ∈ d.nodes,
      (((n.type = NodeType.bus ∨ n.type = NodeType.load ∨
          (n.type = NodeType.breaker ∧ n.closed = some true)) ∧
        ((p = (n.id, 0) ∧ q = (n.id, 1)) ∨ (p = (n.id, 1) ∧ q = (n.id, 0)))) ∨
       ((n.type = NodeType.rectifier ∨ n.type = NodeType.inverter) ∧
        (p = (n.id, 0) ∧ q = (n.id, 1)))) := by
  unfold internalArcs at h
  rw [List.mem_flatMap] at h
  obtain ⟨n, hn, hx⟩ := h
  refine ⟨n, hn, ?_⟩
  revert hx
  cases htn : n.type with
  | source => intro hx; simp at hx
  | breaker =>
    intro hx
    by_cases hcl : n.closed = some true
    · rw [if_pos hcl] at hx
      simp only [List.mem_cons, List.not_mem_nil, or_false, Prod.mk.injEq] at hx
      exact Or.inl ⟨Or.inr (Or.inr ⟨rfl, hcl⟩), hx⟩
    · rw [if_neg hcl] at hx
      simp at hx
  | bus =>
    intro hx
    simp only [List.mem_cons, List.not_mem_nil, or_false, Prod.mk.injEq] at hx
    exact Or.inl ⟨Or.inl rfl, hx⟩
  | load =>
    intro hx
    simp only [List.mem_cons, List.not_mem_nil, or_false, Prod.mk.injEq] at hx
    exact Or.inl ⟨Or.inr (Or.inl rfl), hx⟩
  | rectifier =>
    intro hx
    simp only [List.mem_singleton, Prod.mk.injEq] at hx
    exact Or.inr ⟨Or.inl rfl, hx⟩
  | inverter =>
    intro hx
    simp only [List.mem_singleton, Prod.mk.injEq] at hx
    exact Or.inr ⟨Or.inr rfl, hx⟩

/-- C6: in a diagram made of exactly one source (with a declared
kind), one breaker and one load, wired source pin to one breaker pin
and the other breaker pin to a load pin, the load is energized iff the
breaker's closed attribute is true. -/
theorem C6_breaker_gating (d : Diagram) (s b l : Node) (e1 e2 : Edge) (i j : Nat)
    (k : Signal)
    (hsty : s.type = NodeType.source) (hsig : s.sourceSignal = some k)
    (hbty : b.type = NodeType.breaker) (hlty : l.type = NodeType.load)
    (hn : d.nodes.Perm [s, b, l]) (he : d.edges.Perm [e1, e2])
    (hN : NodupIds d) (hi : i ≤ 1) (_hj : j ≤ 1)
    (hj1 : joins e1 (s.id, 0) (b.id, i)) (hj2 : joins e2 (b.id, 1 - i) (l.id, j)) :
    (sim d).isSome ∧ (l.id ∈ (simOut d).nodeHot ↔ b.closed = some true) := by
  have hs_mem : s ∈ d.nodes := hn.mem_iff.2 (by simp)
  have hb_mem : b ∈ d.nodes := hn.mem_iff.2 (by simp)
  have hl_mem : l ∈ d.nodes := hn.mem_iff.2 (by simp)
  have he1_mem : e1 ∈ d.edges := he.mem_iff.2 (by simp)
  have he2_mem : e2 ∈ d.edges := he.mem_iff.2 (by simp)
  have hndl : ([s, b, l].map Node.id).Nodup := (hn.map Node.id).nodup_iff.1 hN
  simp only [List.map_cons, List.map_nil, List.nodup_cons, List.mem_cons,
    List.not_mem_nil, or_false, List.nodup_nil, and_true, not_or] at hndl
  obtain ⟨⟨hsb, hsl⟩, hbl, -⟩ := hndl
  have hLs : lookupNode d s.id = some s := (lookupNode_eq_some_iff hN).2 ⟨hs_mem, rfl⟩
  have hLb : lookupNode d b.id = some b := (lookupNode_eq_some_iff hN).2 ⟨hb_mem, rfl⟩
  have hLl : lookupNode d l.id = some l := (lookupNode_eq_some_iff hN).2 ⟨hl_mem, rfl⟩
  have hwf : WFRefs d := by
    intro e hmem
    have hmem2 := he.mem_iff.1 hmem
    simp only [List.mem_cons, List.not_mem_nil, or_false] at hmem2
    have hSl : (lookupNode d s.id).isSome := by rw [hLs]; rfl
    have hBl : (lookupNode d b.id).isSome := by rw [hLb]; rfl
    have hLl2 : (lookupNode d l.id).isSome := by rw [hLl]; rfl
    rcases hmem2 with rfl | rfl
    · rcases hj1 with ⟨h1, h2⟩ | ⟨h1, h2⟩
      · have h3 : e.fromId = s.id := congrArg Prod.fst h1
        have h4 : e.toId = b.id := congrArg Prod.fst h2
        rw [h3, h4]
        exact ⟨hSl, hBl⟩
      · have h3 : e.fromId = b.id := congrArg Prod.fst h1
        have h4 : e.toId = s.id := congrArg Prod.fst h2
        rw [h3, h4]
        exact ⟨hBl, hSl⟩
    · rcases hj2 with ⟨h1, h2⟩ | ⟨h1, h2⟩
      · have h3 : e.fromId = b.id := congrArg Prod.fst h1
        have h4 : e.toId = l.id := congrArg Prod.fst h2
        rw [h3, h4]
        exact ⟨hBl, hLl2⟩
      · have h3 : e.fromId = l.id := congrArg Prod.fst h1
        have h4 : e.toId = b.id := congrArg Prod.fst h2
        rw [h3, h4]
        exact ⟨hLl2, hBl⟩
  have hsome : (sim d).isSome := sim_isSome_of_WFRefs d hwf
  obtain ⟨st, hst, hsim⟩ := sim_isSome_elim hsome
  refine ⟨hsome, ?_⟩
  rw [simOut_eq hst]
  have hfwd : b.closed = some true → Reaches d (l.id, j) k := by
    intro hcl
    have R0 : Reaches d (s.id, 0) k := Reaches.seed ⟨s, hs_mem, hsty, hsig, rfl⟩
    have harc1 := wire_arcs_of_joins he1_mem hj1
    have R1 : Reaches d (b.id, i) k := by
      refine R0.step ⟨harc1.1, ?_⟩
      simp [outSig, hLs, hLb, Ne.symm hsb]
    have harcb := breaker_internal_arcs hb_mem hbty hcl
    have houtbb : ∀ pp qq : Nat, outSig d (b.id, pp) k (b.id, qq) = some (some k) := by
      intro pp qq
      simp [outSig, hLb, hbty]
    have R2 : Reaches d (b.id, 1 - i) k := by
      rcases Nat.le_one_iff_eq_zero_or_eq_one.1 hi with rfl | rfl
      · exact R1.step ⟨harcb.1, houtbb 0 1⟩
      · exact R1.step ⟨harcb.2, houtbb 1 0⟩
    have harc2 := wire_arcs_of_joins he2_mem hj2
    refine R2.step ⟨harc2.1, ?_⟩
    simp [outSig, hLb, hLl, Ne.symm hbl]
  have hbwd : ¬(b.closed = some true) → ∀ (p : Pin) (t : Signal), Reaches d p t →
      p = ((s.id, 0) : Pin) ∨ p = (b.id, i) := by
    intro hcl p t hr
    induction hr with
    | seed hseed =>
      obtain ⟨m, hmem, hmty, hmsig, rfl⟩ := hseed
      have hm2 := hn.mem_iff.1 hmem
      simp only [List.mem_cons, List.not_mem_nil, or_false] at hm2
      rcases hm2 with heq | heq | heq
      · rw [heq]
        exact Or.inl rfl
      · rw [heq, hbty] at hmty
        exact absurd hmty (by simp)
      · rw [heq, hlty] at hmty
        exact absurd hmty (by simp)
    | @step p0 s0 q0 t0 hr2 hf ih =>
      obtain ⟨harc, hout⟩ := hf
      unfold arcs at harc
      rcases List.mem_append.1 harc with hm | hm
      · obtain ⟨e, hemem, hor⟩ := wireArcs_mem hm
        have hee := he.mem_iff.1 hemem
        simp only [List.mem_cons, List.not_mem_nil, or_false] at hee
        rcases hee with rfl | rfl
        · rcases joins_arc_cases hj1 hor with ⟨hp0, hq0⟩ | ⟨hp0, hq0⟩
          · exact Or.inr hq0
          · exact Or.inl hq0
        · rcases joins_arc_cases hj2 hor with ⟨hp0, hq0⟩ | ⟨hp0, hq0⟩
          · rcases ih with heq | heq
            · rw [heq] at hp0
              have h5 : s.id = b.id := congrArg Prod.fst hp0
              exact absurd h5 hsb
            · rw [heq] at hp0
              have h5 : i = 1 - i := congrArg Prod.snd hp0
              rcases Nat.le_one_iff_eq_zero_or_eq_one.1 hi with rfl | rfl
              · simp at h5
              · simp at h5
          · rcases ih with heq | heq
            · rw [heq] at hp0
              have h5 : s.id = l.id := congrArg Prod.fst hp0
              exact absurd h5 hsl
            · rw [heq] at hp0
              have h5 : b.id = l.id := congrArg Prod.fst hp0
              exact absurd h5 hbl
      · obtain ⟨m, hmmem, hcase⟩ := internalArcs_cases hm
        have hm2 := hn.mem_iff.1 hmmem
        simp only [List.mem_cons, List.not_mem_nil, or_false] at hm2
        rcases hm2 with heq | heq | heq
        · rw [heq] at hcase
          rcases hcase with ⟨hty2, _⟩ | ⟨hty2, _⟩
          · rcases hty2 with h5 | h5 | ⟨h5, _⟩ <;> (rw [hsty] at h5; exact absurd h5 (by simp))
          · rcases hty2 with h5 | h5 <;> (rw [hsty] at h5; exact absurd h5 (by simp))
        · rw [heq] at hcase
          rcases hcase with ⟨hty2, _⟩ | ⟨hty2, _⟩
          · rcases hty2 with h5 | h5 | ⟨_, h5⟩
            · rw [hbty] at h5
              exact absurd h5 (by simp)
            · rw [hbty] at h5
              exact absurd h5 (by simp)
            · exact absurd h5 hcl
          · rcases hty2 with h5 | h5 <;> (rw [hbty] at h5; exact absurd h5 (by simp))
        · rw [heq] at hcase
          have hp0id : p0.1 = l.id := by
            rcases hcase with ⟨_, hpq⟩ | ⟨_, hpq⟩
            · rcases hpq with ⟨hp0, _⟩ | ⟨hp0, _⟩ <;> rw [hp0]
            · rw [hpq.1]
          rcases ih with heq2 | heq2
          · rw [heq2] at hp0id
            exact absurd hp0id hsl
          · rw [heq2] at hp0id
            exact absurd hp0id hbl
  rw [mem_nodeHot_iff]
  constructor
  · rintro ⟨p, t, hmem, hpid⟩
    by_contra hcl
    have hr := (simState_reached_iff hN hst p t).1 hmem
    rcases hbwd hcl p t hr with rfl | rfl
    · exact hsl hpid
    · exact hbl hpid
  · intro hcl
    exact ⟨(l.id, j), k, (simState_reached_iff hN hst (l.id, j) k).2 (hfwd hcl), rfl⟩

/-- C6 witness: the gate diagram with the closed breaker instantiates
the gating equivalence. -/
theorem C6_breaker_gating_witness :
    (sim (gateDiag true)).isSome ∧
    ("L" ∈ (simOut (gateDiag true)).nodeHot ↔ (some true : Option Bool) = some true) :=
  C6_breaker_gating (gateDiag true)
    { id := "S", type := NodeType.source, sourceSignal := some Signal.AC }
    { id := "B", type := NodeType.breaker, closed := some true }
    { id := "L", type := NodeType.load }
    { id := "E1", fromId := "S", fromPort := 0, toId := "B", toPort := 0 }
    { id := "E2", fromId := "B", fromPort := 1, toId := "L", toPort := 0 }
    0 0 Signal.AC rfl rfl rfl rfl (List.Perm.refl _) (List.Perm.refl _)
    (by decide) (by decide) (by decide) (Or.inl ⟨rfl, rfl⟩) (Or.inl ⟨rfl, rfl⟩)

end OneLine
